import Mathlib

/-!
# Placement rules (`ddl/placement/rule.go`)

A shallow embedding of the placement-rule compiler (`NewRule`, `NewRules`,
`NewRulesWithDictConstraints`, `getYamlMapFormatError`), of the JSON codec of
`TiFlashRule` (`MarshalJSON`, `UnmarshalJSON`) and of `Rule.Clone`.

Modelling conventions.

* Go `string` values are Lean `String`s (texts holding valid UTF-8); `len(s)`
  is `String.utf8ByteSize`.
* Go `int` is a 64-bit two's complement integer and `uint64` a 64-bit
  unsigned one.  Values are `Int` / `Nat`; every conversion and every
  addition that can wrap is written with an explicit reduction modulo `2^64`.
* A slice is a `List`; a `nil` slice and an empty slice are both `[]`.
  `[]*Rule` is a list of rule values.
* A Go result `(rules, err)` is a pair whose second component is `none` for
  a `nil` error.
* The functions of other files and packages that `rule.go` calls
  (`NewConstraintsFromYaml`, `NewConstraints`, `preCheckDictConstraintStr`,
  `yaml.UnmarshalStrict`, `json.Marshal`, `json.Unmarshal`) are parameters,
  collected in `Env` and `JsonLib`.  The order in which a `range` loop visits
  a Go map is unspecified; it is a parameter too.
* `Clone` works on pointers: it is embedded over an explicit `Memory` of rule
  variables and of the backing arrays of constraint sets.
-/

namespace Placement

/-! ## Errors -/

/-- The package-level error values that `rule.go` refers to (they are declared
in another file of the package; only their identity matters here). -/
inductive Sentinel where
  | ErrInvalidConstraintsFormat
  | ErrInvalidConstraintsReplicas
  | ErrInvalidConstraintsMappingNoColonFound
  | ErrInvalidConstraintsMappingWrongSeparator
  | ErrInvalidConstraintsMapcnt
  deriving DecidableEq, Repr

/-- A Go `error` value.  `sentinel s` is the package-level value itself,
`errorf s tail` is the value built by `fmt.Errorf("%w" + tail, s)` (it wraps `s`
and its text is the text of `s` followed by `tail`), and `foreign text` is an
error made by code outside `rule.go`. -/
inductive GoError where
  | sentinel (s : Sentinel)
  | errorf (s : Sentinel) (tail : String)
  | foreign (text : String)
  deriving DecidableEq, Repr

deriving instance DecidableEq for Except

/-- The predicate `errors.Is(e, s)`. -/
def GoError.Is : GoError → Sentinel → Bool
  | .sentinel s', s => decide (s' = s)
  | .errorf s' _, s => decide (s' = s)
  | .foreign _, _ => false

/-- The method `e.Error()`, given the texts of the package-level error values. -/
def GoError.Error (txt : Sentinel → String) : GoError → String
  | .sentinel s => txt s
  | .errorf s tail => txt s ++ tail
  | .foreign text => text

/-- Holds when `part` occurs in `whole` as a contiguous piece. -/
def Contains (whole part : String) : Prop :=
  ∃ before after : String, whole = before ++ part ++ after

/-! ## Machine integers -/

/-- The conversion `int(n)` of a `uint64` value (two's complement). -/
def intOfUint64 (n : Nat) : Int :=
  if n % 2 ^ 64 < 2 ^ 63 then ((n % 2 ^ 64 : Nat) : Int)
  else ((n % 2 ^ 64 : Nat) : Int) - 2 ^ 64

/-- The conversion `uint64(i)` of an `int` value. -/
def uint64OfInt (i : Int) : Nat :=
  (i % 2 ^ 64).toNat

/-- The result of an `int` computation whose mathematical value is `i`. -/
def wrapInt (i : Int) : Int :=
  intOfUint64 (uint64OfInt i)

/-! ## Data model -/

/-- The type `PeerRoleType` (a Go string type). -/
abbrev PeerRoleType := String

/-- The constant `Voter`. -/
def Voter : PeerRoleType := "voter"
/-- The constant `Leader`. -/
def Leader : PeerRoleType := "leader"
/-- The constant `Follower`. -/
def Follower : PeerRoleType := "follower"
/-- The constant `Learner`. -/
def Learner : PeerRoleType := "learner"

/-- The struct `Rule`.  `C` is the type `Constraints`, declared in another
file of the package. -/
structure Rule (C : Type) where
  GroupID : String
  ID : String
  Index : Int
  Override : Bool
  StartKeyHex : String
  EndKeyHex : String
  Role : PeerRoleType
  Count : Int
  Constraints : C
  LocationLabels : List String
  deriving DecidableEq, Repr

/-- The function `NewRule`: the fields that the composite literal does not
name take their zero value. -/
def NewRule {C : Type} (role : PeerRoleType) (replicas : Nat) (cnst : C) : Rule C :=
  { GroupID := "", ID := "", Index := 0, Override := false,
    StartKeyHex := "", EndKeyHex := "",
    Role := role, Count := intOfUint64 replicas, Constraints := cnst,
    LocationLabels := [] }

/-! ## The pattern `wrongSeparatorRegexp` -/

/-- Regular expressions over characters, as far as `rule.go` needs them. -/
inductive Regexp where
  | none
  | eps
  | cls (p : Char → Bool)
  | cat (r s : Regexp)
  | alt (r s : Regexp)
  | star (r : Regexp)

/-- Does the expression match the empty text? -/
def Regexp.nullable : Regexp → Bool
  | .none => false
  | .eps => true
  | .cls _ => false
  | .cat r s => r.nullable && s.nullable
  | .alt r s => r.nullable || s.nullable
  | .star _ => true

/-- The derivative of an expression by one character. -/
def Regexp.deriv (c : Char) : Regexp → Regexp
  | .none => .none
  | .eps => .none
  | .cls p => if p c then .eps else .none
  | .cat r s =>
      if r.nullable then .alt (.cat (r.deriv c) s) (s.deriv c)
      else .cat (r.deriv c) s
  | .alt r s => .alt (r.deriv c) (s.deriv c)
  | .star r => .cat (r.deriv c) (.star r)

/-- Does the expression match the whole text? -/
def Regexp.fullMatch : Regexp → List Char → Bool
  | r, [] => r.nullable
  | r, c :: cs => (r.deriv c).fullMatch cs

/-- The operator `r+`. -/
def Regexp.plus (r : Regexp) : Regexp := .cat r (.star r)

/-- Any text at all. -/
def Regexp.anything : Regexp := .star (.cls fun _ => true)

/-- The method `MatchString`: does the text contain a match of the expression? -/
def Regexp.MatchString (r : Regexp) (s : String) : Bool :=
  (Regexp.cat Regexp.anything (Regexp.cat r Regexp.anything)).fullMatch s.toList

/-- The class of every character other than the double quote (34), the single
quote (39) and the colon. -/
def notQuoteOrColon (c : Char) : Bool :=
  !(c == Char.ofNat 34 || c == Char.ofNat 39 || c == ':')

/-- The class `\d` (ASCII digits). -/
def isDigit (c : Char) : Bool :=
  decide ('0' ≤ c) && decide (c ≤ '9')

/-- The variable `wrongSeparatorRegexp`, compiled from the pattern
`[^"':]+:\d`. -/
def wrongSeparatorRegexp : Regexp :=
  .cat (Regexp.plus (.cls notQuoteOrColon)) (.cat (.cls fun c => c == ':') (.cls isDigit))

/-- The function `getYamlMapFormatError`. -/
def getYamlMapFormatError (str : String) : Option GoError :=
  if !(str.toList.contains ':') then
    some (.sentinel .ErrInvalidConstraintsMappingNoColonFound)
  else if wrongSeparatorRegexp.MatchString str then
    some (.sentinel .ErrInvalidConstraintsMappingWrongSeparator)
  else
    none

/-! ## The compiler -/

/-- A decoded `map[string]int`: its entries, with pairwise different keys. -/
abbrev GoMap := List (String × Int)

/-- The functions that `NewRules` and `NewRulesWithDictConstraints` call and
that `rule.go` does not define.

* `NewConstraintsFromYaml` parses the list grammar; a failure is represented by
  the text of the error (`rule.go` only tests it against `nil` and prints it).
* `yamlUnmarshalStrict` is `yaml.UnmarshalStrict` at the type `map[string]int`,
  with the same representation of a failure.
* `preCheckDictConstraintStr` resolves a dictionary key into its labels and the
  role of the rule; `NewConstraints` validates a list of labels.
* `range₁` and `range₂` give the order in which the first and the second
  `range` loop of `NewRulesWithDictConstraints` visit the entries of the map. -/
structure Env (C : Type) where
  NewConstraintsFromYaml : String → Except String C
  yamlUnmarshalStrict : String → Except String GoMap
  preCheckDictConstraintStr : String → PeerRoleType → Except GoError (List String × PeerRoleType)
  NewConstraints : List String → Except GoError C
  range₁ : GoMap → GoMap
  range₂ : GoMap → GoMap

/-- What the library guarantees about a decoded map and about `range`: the
keys of a map are pairwise different, every value is an `int`, and a `range`
loop visits every entry exactly once. -/
structure Env.WF {C : Type} (env : Env C) : Prop where
  keys_nodup : ∀ s m, env.yamlUnmarshalStrict s = .ok m → (m.map Prod.fst).Nodup
  values_int : ∀ s m, env.yamlUnmarshalStrict s = .ok m →
    ∀ e ∈ m, -(2 : Int) ^ 63 ≤ e.2 ∧ e.2 < 2 ^ 63
  range₁_perm : ∀ m, (env.range₁ m).Perm m
  range₂_perm : ∀ m, (env.range₂ m).Perm m

/-- The first loop of `NewRulesWithDictConstraints` over the entries in the
order given: the error of the first entry whose count is not positive. -/
def checkCounts (cnstr : String) : GoMap → Option GoError
  | [] => none
  | (labels, cnt) :: rest =>
      if cnt ≤ 0 then
        match getYamlMapFormatError cnstr with
        | some err => some err
        | none =>
            some (.errorf .ErrInvalidConstraintsMapcnt
              (": count of labels '" ++ labels ++ "' should be positive, but got " ++ toString cnt))
      else checkCounts cnstr rest

/-- The second loop of `NewRulesWithDictConstraints` over the entries in the
order given; `rules` is the slice built so far. -/
def buildRules {C : Type} (env : Env C) (role : PeerRoleType) :
    GoMap → List (Rule C) → List (Rule C) × Option GoError
  | [], rules => (rules, none)
  | (labels, cnt) :: rest, rules =>
      match env.preCheckDictConstraintStr labels role with
      | .error err => (rules, some err)
      | .ok (lbs, overrideRole) =>
          match env.NewConstraints lbs with
          | .error err => (rules, some err)
          | .ok labelConstraints =>
              if cnt = 0 then
                ([], some (.errorf .ErrInvalidConstraintsReplicas
                  (": count of replicas should be positive, but got " ++ toString cnt)))
              else
                buildRules env role rest
                  (rules ++ [NewRule overrideRole (uint64OfInt cnt) labelConstraints])

/-- The function `NewRulesWithDictConstraints`. -/
def NewRulesWithDictConstraints {C : Type} (env : Env C) (role : PeerRoleType)
    (cnstr : String) : List (Rule C) × Option GoError :=
  match env.yamlUnmarshalStrict cnstr with
  | .ok constraints2 =>
      match checkCounts cnstr (env.range₁ constraints2) with
      | some err => ([], some err)
      | none => buildRules env role (env.range₂ constraints2) []
  | .error err2 =>
      ([], some (.errorf .ErrInvalidConstraintsFormat
        (": should be [constraint1, ...] or \x7bconstraint1: cnt1, ...\x7d, error " ++ err2
          ++ ", or any yaml compatible representation")))

/-- The loop of `NewRules` that adds up the counts of the rules, in `int`. -/
def totalCnt {C : Type} (rules : List (Rule C)) : Int :=
  rules.foldl (fun acc rule => wrapInt (acc + rule.Count)) 0

/-- The sum of the counts of the rules, as a mathematical integer. -/
def countSum {C : Type} (rules : List (Rule C)) : Int :=
  (rules.map fun r => r.Count).sum

/-- The function `NewRules`; `replicas` is a `uint64`. -/
def NewRules {C : Type} (env : Env C) (role : PeerRoleType) (replicas : Nat)
    (cnstr : String) : List (Rule C) × Option GoError :=
  match env.NewConstraintsFromYaml cnstr with
  | .ok constraints1 =>
      if replicas = 0 then
        if cnstr.utf8ByteSize > 0 then
          ([], some (.errorf .ErrInvalidConstraintsReplicas
            (": count of replicas should be positive, but got " ++ toString replicas
              ++ ", constraint " ++ cnstr)))
        else ([], none)
      else ([] ++ [NewRule role replicas constraints1], none)
  | .error err1 =>
      match env.yamlUnmarshalStrict cnstr with
      | .error err2 =>
          ([], some (.errorf .ErrInvalidConstraintsFormat
            (": should be [constraint1, ...] (error " ++ err1
              ++ "), \x7bconstraint1: cnt1, ...\x7d (error " ++ err2
              ++ "), or any yaml compatible representation")))
      | .ok _ =>
          match NewRulesWithDictConstraints env role cnstr with
          | (rules, some err) => (rules, some err)
          | (rules, none) =>
              if replicas ≠ 0 ∧ replicas ≠ uint64OfInt (totalCnt rules) then
                (rules, some (.errorf .ErrInvalidConstraintsReplicas
                  (": count of replicas in dict constrains is " ++ toString (totalCnt rules)
                    ++ ", but got " ++ toString replicas)))
              else (rules, none)

/-! ## Bytes, `encoding/hex` and the key codec -/

/-- A Go `byte`. -/
abbrev Byte := Fin 256

/-- The conversion `byte(n)`. -/
def byte (n : Nat) : Byte := ⟨n % 256, Nat.mod_lt n (by decide)⟩

namespace hex

/-- The table `hextable` of `encoding/hex`. -/
def hextable : List Char := "0123456789abcdef".toList

/-- The digit `hextable[n]`. -/
def digit (n : Nat) : Char := hextable.getD n '0'

/-- The characters written by `hex.EncodeToString`: two digits per byte, the
high half first. -/
def encodeChars : List Byte → List Char
  | [] => []
  | v :: rest => digit (v.val / 16) :: digit (v.val % 16) :: encodeChars rest

/-- The function `hex.EncodeToString`. -/
def EncodeToString (src : List Byte) : String := String.mk (encodeChars src)

/-- The function `fromHexChar` of `encoding/hex`: the value of a digit. -/
def fromHexChar (c : Char) : Option Nat :=
  if '0' ≤ c ∧ c ≤ '9' then some (c.toNat - '0'.toNat)
  else if 'a' ≤ c ∧ c ≤ 'f' then some (c.toNat - 'a'.toNat + 10)
  else if 'A' ≤ c ∧ c ≤ 'F' then some (c.toNat - 'A'.toNat + 10)
  else none

/-- The first byte of the UTF-8 encoding of a character.  `hex.Decode` reads
the text byte by byte; a character that is not a hex digit is met at the first
byte of its encoding, and that byte is not a hex digit either. -/
def utf8Head (c : Char) : Byte :=
  if c.toNat < 0x80 then byte c.toNat
  else if c.toNat < 0x800 then byte (0xC0 + c.toNat / 64)
  else if c.toNat < 0x10000 then byte (0xE0 + c.toNat / 4096)
  else byte (0xF0 + c.toNat / 262144)

/-- The upper-case digit that the verb `%X` writes for a value below 16. -/
def upperDigit (n : Nat) : Char := "0123456789ABCDEF".toList.getD n '0'

/-- The function `strconv.IsPrint` on the rune of a byte: the ASCII characters
from the space to `~`, and the runes from `0xA1` to `0xFF` other than the soft
hyphen `0xAD`. -/
def isPrint (b : Byte) : Bool :=
  (decide (0x20 ≤ b.val) && decide (b.val ≤ 0x7E))
    || (decide (0xA1 ≤ b.val) && decide (b.val ≠ 0xAD))

/-- The text of `fmt.Sprintf("%#U", rune(b))` for a byte `b`: `U+` and four
upper-case hex digits, followed by the quoted character when it is printable. -/
def sharpU (b : Byte) : String :=
  "U+00" ++ String.mk [upperDigit (b.val / 16), upperDigit (b.val % 16)]
    ++ (if isPrint b then " '" ++ String.singleton (Char.ofNat b.val) ++ "'" else "")

/-- The error `InvalidByteError(b)`, whose text is
`fmt.Sprintf("encoding/hex: invalid byte: %#U", rune(b))`. -/
def InvalidByteError (b : Byte) : GoError :=
  .foreign ("encoding/hex: invalid byte: " ++ sharpU b)

/-- The error `ErrLength`. -/
def ErrLength : GoError := .foreign "encoding/hex: odd length hex string"

/-- The loop of `hex.Decode` over the characters of the text.  A text is
decoded without error exactly when all its bytes are hex digits, that is when
all its characters are; otherwise the first byte that is not a hex digit is
the first byte of the first character that is not one, and it is the byte
that the error reports. -/
def decodeChars : List Char → Except GoError (List Byte)
  | [] => .ok []
  | [p] =>
      match fromHexChar p with
      | none => .error (InvalidByteError (utf8Head p))
      | some _ => .error ErrLength
  | p :: q :: rest =>
      match fromHexChar p with
      | none => .error (InvalidByteError (utf8Head p))
      | some a =>
          match fromHexChar q with
          | none => .error (InvalidByteError (utf8Head q))
          | some b =>
              match decodeChars rest with
              | .error err => .error err
              | .ok bytes => .ok (byte (a * 16 + b) :: bytes)

/-- The function `hex.DecodeString` (the bytes decoded before an error are
dropped: `rule.go` returns on any error). -/
def DecodeString (s : String) : Except GoError (List Byte) := decodeChars s.toList

end hex

namespace codec

/-- Modelled from the spec: the constant `encGroupSize` of package `util/codec`
(not under `src/`), the number of data bytes of a group. -/
def encGroupSize : Nat := 8
/-- Modelled from the spec: the constant `encMarker` of package `util/codec`
(not under `src/`), the marker of a group without padding. -/
def encMarker : Byte := 255
/-- Modelled from the spec: the constant `encPad` of package `util/codec` (not
under `src/`), the padding byte. -/
def encPad : Byte := 0

/-- Modelled from the spec: the loop of the order-preserving ("memcomparable")
byte encoder `codec.EncodeBytes` of package `util/codec`, which is not under
`src/`.  The spec fixes its contract only (round trip and order preservation,
both proved below); the model is the group encoding of that package.  Each
turn of the loop writes one group of `encGroupSize` bytes of `data`, the last
group filled up with `encPad`, followed by the marker `encMarker - padCount`.
The first argument counts the turns that are left. -/
def encodeLoop : Nat → List Byte → List Byte
  | 0, _ => []
  | turns + 1, data =>
      if encGroupSize ≤ data.length then
        data.take encGroupSize ++ [encMarker] ++ encodeLoop turns (data.drop encGroupSize)
      else
        let padCount := encGroupSize - data.length
        data ++ List.replicate padCount encPad ++ [byte (encMarker.val + 256 - padCount)]

/-- Modelled from the spec: the function `codec.EncodeBytes(b, data)` of
package `util/codec` (not under `src/`).  It appends the encoding of `data` to
`b`; the loop `for idx := 0; idx <= dLen; idx += encGroupSize` makes
`dLen / encGroupSize + 1` turns. -/
def EncodeBytes (b data : List Byte) : List Byte :=
  b ++ encodeLoop (data.length / encGroupSize + 1) data

/-- Modelled from the spec: the error of `codec.DecodeBytes` for a buffer that
is too short. -/
def errInsufficient : GoError := .foreign "insufficient bytes to decode value"
/-- Modelled from the spec: the error of `codec.DecodeBytes` for a marker byte
that is out of range. -/
def errMarker : GoError := .foreign "invalid marker byte"
/-- Modelled from the spec: the error of `codec.DecodeBytes` for a padding byte
that is not `encPad`. -/
def errPadding : GoError := .foreign "invalid padding byte"

/-- Modelled from the spec: the loop of the decoder `codec.DecodeBytes` of
package `util/codec` (not under `src/`).  Each turn reads one group of
`encGroupSize + 1` bytes from `b`, appends its data bytes to `buf`, and stops
after the first group whose marker announces padding.  The result is the rest
of `b` and the decoded bytes.  The first argument bounds the number of turns. -/
def decodeLoop : Nat → List Byte → List Byte → Except GoError (List Byte × List Byte)
  | 0, _, _ => .error errInsufficient
  | turns + 1, b, buf =>
      if b.length < encGroupSize + 1 then .error errInsufficient
      else
        let groupBytes := b.take (encGroupSize + 1)
        let group := groupBytes.take encGroupSize
        let marker := groupBytes.getD encGroupSize 0
        let padCount := (encMarker.val + 256 - marker.val) % 256
        if padCount > encGroupSize then .error errMarker
        else
          let realGroupSize := encGroupSize - padCount
          let buf := buf ++ group.take realGroupSize
          let b := b.drop (encGroupSize + 1)
          if padCount ≠ 0 then
            if (group.drop realGroupSize).all (fun v => v == encPad) then .ok (b, buf)
            else .error errPadding
          else decodeLoop turns b buf

/-- Modelled from the spec: the function `codec.DecodeBytes(b, buf)` of package
`util/codec` (not under `src/`), called with `buf = nil`: it returns the
leftover bytes of `b` and the decoded value, or an error (and then two `nil`
slices).  Every turn of its loop consumes `encGroupSize + 1` bytes, so
`len(b) / (encGroupSize + 1) + 1` turns are never exhausted. -/
def DecodeBytes (b : List Byte) : Except GoError (List Byte × List Byte) :=
  decodeLoop (b.length / (encGroupSize + 1) + 1) b []

end codec

/-! ## The columnar rule and its JSON form -/

/-- The struct `TiFlashRule`. -/
structure TiFlashRule (C : Type) where
  GroupID : String
  ID : String
  Index : Int
  Override : Bool
  Role : PeerRoleType
  Count : Int
  Constraints : C
  LocationLabels : List String
  IsolationLevel : String
  StartKey : List Byte
  EndKey : List Byte
  deriving DecidableEq, Repr

/-- The struct `tiFlashRule`, the shape of the JSON document. -/
structure tiFlashRule (C : Type) where
  GroupID : String
  ID : String
  Index : Int
  Override : Bool
  Role : PeerRoleType
  Count : Int
  Constraints : C
  LocationLabels : List String
  IsolationLevel : String
  StartKeyHex : String
  EndKeyHex : String
  deriving DecidableEq, Repr

/-- The functions `json.Marshal` and `json.Unmarshal` of `encoding/json` at the
type `tiFlashRule`.  `Unmarshal` decodes into a fresh variable, so its result
depends on the document only. -/
structure JsonLib (C : Type) where
  Marshal : tiFlashRule C → Except GoError (List Byte)
  Unmarshal : List Byte → Except GoError (tiFlashRule C)

/-- The composite literal that `MarshalJSON` passes to `json.Marshal`. -/
def TiFlashRule.wire {C : Type} (r : TiFlashRule C) : tiFlashRule C :=
  { GroupID := r.GroupID, ID := r.ID, Index := r.Index, Override := r.Override,
    Role := r.Role, Count := r.Count, Constraints := r.Constraints,
    LocationLabels := r.LocationLabels, IsolationLevel := r.IsolationLevel,
    StartKeyHex := hex.EncodeToString (codec.EncodeBytes [] r.StartKey),
    EndKeyHex := hex.EncodeToString (codec.EncodeBytes [] r.EndKey) }

/-- The method `MarshalJSON`. -/
def TiFlashRule.MarshalJSON {C : Type} (json : JsonLib C) (r : TiFlashRule C) :
    Except GoError (List Byte) :=
  json.Marshal r.wire

/-- The composite literal that `UnmarshalJSON` assigns to `*r`: the two keys
are not named and are `nil`. -/
def tiFlashRule.assigned {C : Type} (rule : tiFlashRule C) : TiFlashRule C :=
  { GroupID := rule.GroupID, ID := rule.ID, Index := rule.Index, Override := rule.Override,
    Role := rule.Role, Count := rule.Count, Constraints := rule.Constraints,
    LocationLabels := rule.LocationLabels, IsolationLevel := rule.IsolationLevel,
    StartKey := [], EndKey := [] }

/-- The method `UnmarshalJSON`: the rule `r` is the receiver before the call,
the result is the receiver after the call and the error. -/
def TiFlashRule.UnmarshalJSON {C : Type} (json : JsonLib C) (r : TiFlashRule C)
    (bytes : List Byte) : TiFlashRule C × Option GoError :=
  match json.Unmarshal bytes with
  | .error err => (r, some err)
  | .ok rule =>
      let r := rule.assigned
      match hex.DecodeString rule.StartKeyHex with
      | .error err => (r, some err)
      | .ok startKey =>
          match hex.DecodeString rule.EndKeyHex with
          | .error err => (r, some err)
          | .ok endKey =>
              match codec.DecodeBytes startKey with
              | .error err => ({ r with StartKey := [] }, some err)
              | .ok (_, key) =>
                  let r := { r with StartKey := key }
                  match codec.DecodeBytes endKey with
                  | .error err => ({ r with EndKey := [] }, some err)
                  | .ok (_, key) => ({ r with EndKey := key }, none)

/-! ## A sample environment -/

/-- A sample list-grammar parser.  It agrees with the parser of the package on
the texts used below: the empty text and `[+zone=sh]` are lists of labels, the
other texts are not lists. -/
def sampleNewConstraintsFromYaml (s : String) : Except String (List String) :=
  if s = "" then .ok []
  else if s = "[+zone=sh]" then .ok ["+zone=sh"]
  else .error "yaml: unmarshal errors"

/-- A sample strict decoder at the type `map[string]int`, given by its value
on a few texts; a key without a value is decoded with the count 0. -/
def sampleYamlUnmarshalStrict (s : String) : Except String GoMap :=
  if s = "\x7b+zone=sh: 1\x7d" then .ok [("+zone=sh", 1)]
  else if s = "\x7b+zone=sh: 1, zone: 1\x7d" then .ok [("+zone=sh", 1), ("zone", 1)]
  else if s = "\x7b+zone=sh: 2, +zone=bj: 1\x7d" then .ok [("+zone=sh", 2), ("+zone=bj", 1)]
  else if s = "\x7b+zone=sh: 0\x7d" then .ok [("+zone=sh", 0)]
  else if s = "\x7b+zone=sh:1\x7d" then .ok [("+zone=sh:1", 0)]
  else if s = "\x7b+zone=sh\x7d" then .ok [("+zone=sh", 0)]
  else .error "yaml: cannot unmarshal into map[string]int"

/-- A sample key resolver: a key that starts with the attribute marker `#` is
refused, any other key is one label and keeps the role of the caller. -/
def samplePreCheck (labels : String) (role : PeerRoleType) :
    Except GoError (List String × PeerRoleType) :=
  match labels.toList with
  | '#' :: _ => .error (.foreign ("unsupported attribute '" ++ labels ++ "'"))
  | _ => .ok ([labels], role)

/-- A sample label validator: every label has to start with `+` or `-`; the
error names the first label that does not. -/
def sampleNewConstraints (lbs : List String) : Except GoError (List String) :=
  match lbs.find? (fun l => !(l.toList.head? = some '+' || l.toList.head? = some '-')) with
  | none => .ok lbs
  | some l =>
      .error (.foreign ("label constraint should be in format '\x7b+|-\x7dkey=value': " ++ l))

/-- The sample environment; both `range` loops visit the entries in the order
in which they are written. -/
def sampleEnv : Env (List String) where
  NewConstraintsFromYaml := sampleNewConstraintsFromYaml
  yamlUnmarshalStrict := sampleYamlUnmarshalStrict
  preCheckDictConstraintStr := samplePreCheck
  NewConstraints := sampleNewConstraints
  range₁ := id
  range₂ := id

/-- The bytes of an ASCII text (`[]byte(s)`). -/
def textBytes (s : String) : List Byte := s.toList.map fun c => byte c.toNat

/-- A sample rule: the range of table 45. -/
def sampleRule : TiFlashRule (List String) :=
  { GroupID := "tiflash", ID := "r1", Index := 0, Override := false, Role := Learner,
    Count := 1, Constraints := [], LocationLabels := [], IsolationLevel := "",
    StartKey := [116, 128, 0, 0, 0, 0, 0, 0, 45], EndKey := [116, 128, 0, 0, 0, 0, 0, 0, 46] }

/-- The JSON document of `sampleRule`. -/
def sampleDoc : List Byte :=
  textBytes ("\x7b\"group_id\":\"tiflash\",\"id\":\"r1\",\"role\":\"learner\",\"count\":1,"
    ++ "\"start_key\":\"7480000000000000ff2d00000000000000f8\","
    ++ "\"end_key\":\"7480000000000000ff2e00000000000000f8\"\x7d")

/-- A JSON document whose start key is the encoding of the empty key followed
by one more byte. -/
def sampleDocLeftover : List Byte :=
  textBytes ("\x7b\"group_id\":\"tiflash\",\"id\":\"r2\",\"role\":\"learner\",\"count\":1,"
    ++ "\"start_key\":\"0000000000000000f700\",\"end_key\":\"0000000000000000f7\"\x7d")

/-- The record of `sampleDocLeftover`. -/
def sampleWireLeftover : tiFlashRule (List String) :=
  { GroupID := "tiflash", ID := "r2", Index := 0, Override := false, Role := Learner,
    Count := 1, Constraints := [], LocationLabels := [], IsolationLevel := "",
    StartKeyHex := "0000000000000000f700", EndKeyHex := "0000000000000000f7" }

/-- A JSON document whose start key is not a hex text. -/
def sampleDocBadHex : List Byte :=
  textBytes ("\x7b\"group_id\":\"tiflash\",\"id\":\"r3\",\"role\":\"learner\",\"count\":1,"
    ++ "\"start_key\":\"zz\",\"end_key\":\"\"\x7d")

/-- The record of `sampleDocBadHex`. -/
def sampleWireBadHex : tiFlashRule (List String) :=
  { GroupID := "tiflash", ID := "r3", Index := 0, Override := false, Role := Learner,
    Count := 1, Constraints := [], LocationLabels := [], IsolationLevel := "",
    StartKeyHex := "zz", EndKeyHex := "" }

/-- A sample JSON library, given by its value on the three sample documents;
on them it agrees with `encoding/json`. -/
def sampleJson : JsonLib (List String) where
  Marshal w :=
    if w = sampleRule.wire then .ok sampleDoc
    else if w = sampleWireLeftover then .ok sampleDocLeftover
    else if w = sampleWireBadHex then .ok sampleDocBadHex
    else .error (.foreign "json: not a sample record")
  Unmarshal doc :=
    if doc = sampleDoc then .ok sampleRule.wire
    else if doc = sampleDocLeftover then .ok sampleWireLeftover
    else if doc = sampleDocBadHex then .ok sampleWireBadHex
    else .error (.foreign "json: not a sample document")

/-! ## Orders of keys and of their wire form -/

/-- The lexicographic order of byte sequences (`bytes.Compare(a, b) < 0`). -/
def bytesLess (a b : List Byte) : Prop := List.Lex (· < ·) a b

/-- The lexicographic order of texts (`s < t` on Go strings). -/
def textLess (s t : String) : Prop := List.Lex (· < ·) s.toList t.toList

instance : DecidableRel bytesLess := fun a b =>
  inferInstanceAs (Decidable (List.Lex (· < ·) a b))

instance : DecidableRel textLess := fun s t =>
  inferInstanceAs (Decidable (List.Lex (· < ·) s.toList t.toList))

/-- The encoding of `codec.EncodeBytes` read byte by byte, used in the proofs:
`n` is the number of bytes already written in the current group.  At the end
of the data the group is filled up and closed by the marker `0xF7 + n`; the
eighth byte of a group is followed by the marker `0xFF`. -/
def codec.encAux : Nat → List Byte → List Byte
  | n, [] => List.replicate (8 - n) codec.encPad ++ [byte (247 + n)]
  | n, x :: xs =>
      if n = 7 then x :: codec.encMarker :: codec.encAux 0 xs
      else x :: codec.encAux (n + 1) xs

/-! ## One turn of the construction loop -/

/-- One turn of the second loop of `NewRulesWithDictConstraints` for an entry
whose count is not 0: the rule that the turn appends, or the error that it
returns. -/
def entryRule {C : Type} (env : Env C) (role : PeerRoleType) (e : String × Int) :
    Except GoError (Rule C) :=
  match env.preCheckDictConstraintStr e.1 role with
  | .error err => .error err
  | .ok (lbs, overrideRole) =>
      match env.NewConstraints lbs with
      | .error err => .error err
      | .ok labelConstraints => .ok (NewRule overrideRole (uint64OfInt e.2) labelConstraints)

/-- The sample environment with the other visiting order: both `range` loops
visit the entries from the last written to the first. -/
def sampleEnvReversed : Env (List String) :=
  { sampleEnv with range₁ := List.reverse, range₂ := List.reverse }

/-- A sample strict decoder for one text whose three counts are the largest
`int`, `2^63 - 1`. -/
def sampleYamlUnmarshalStrictBig (s : String) : Except String GoMap :=
  if s = "\x7b+zone=a: 9223372036854775807, +zone=b: 9223372036854775807, "
      ++ "+zone=c: 9223372036854775807\x7d" then
    .ok [("+zone=a", 9223372036854775807), ("+zone=b", 9223372036854775807),
      ("+zone=c", 9223372036854775807)]
  else .error "yaml: cannot unmarshal into map[string]int"

/-- The sample environment with the decoder `sampleYamlUnmarshalStrictBig`. -/
def sampleEnvBig : Env (List String) :=
  { sampleEnv with yamlUnmarshalStrict := sampleYamlUnmarshalStrictBig }

/-- The second loop of `NewRulesWithDictConstraints` with the test `cnt == 0`
and its branch taken out; it is compared with `buildRules`. -/
def buildRulesWithoutZeroTest {C : Type} (env : Env C) (role : PeerRoleType) :
    GoMap → List (Rule C) → List (Rule C) × Option GoError
  | [], rules => (rules, none)
  | (labels, cnt) :: rest, rules =>
      match env.preCheckDictConstraintStr labels role with
      | .error err => (rules, some err)
      | .ok (lbs, overrideRole) =>
          match env.NewConstraints lbs with
          | .error err => (rules, some err)
          | .ok labelConstraints =>
              buildRulesWithoutZeroTest env role rest
                (rules ++ [NewRule overrideRole (uint64OfInt cnt) labelConstraints])

/-! ## Memory: rule variables and the storage of constraint sets -/

/-- Modelled from the spec: a value of the type `Constraints`, which is declared
in another file of the package.  The comment of `Clone` and the spec describe
it as storage that a copy of a rule shares with the rule (a slice): the value
is a reference, the address of the backing array and the length.  The `nil`
value has the length 0. -/
structure SliceRef where
  array : Nat
  len : Nat
  deriving DecidableEq, Repr

/-- The memory of a program: the variables of type `Rule` (a `*Rule` is the
index of a variable) and the backing arrays of the constraint sets (`E` is the
type of one constraint). -/
structure Memory (E : Type) where
  rules : List (Rule SliceRef)
  arrays : List (List E)

/-- The zero value `Rule{}`. -/
def zeroRule : Rule SliceRef :=
  { GroupID := "", ID := "", Index := 0, Override := false, StartKeyHex := "",
    EndKeyHex := "", Role := "", Count := 0, Constraints := ⟨0, 0⟩, LocationLabels := [] }

/-- The value `*p`, if `p` points to a variable. -/
def Memory.rule? {E : Type} (m : Memory E) (p : Nat) : Option (Rule SliceRef) :=
  m.rules[p]?

/-- The assignment `*p = v`; an assignment to one field `p.F = x` is the
assignment of the value of `*p` with the field `F` replaced by `x`. -/
def Memory.store {E : Type} (m : Memory E) (p : Nat) (v : Rule SliceRef) : Memory E :=
  { m with rules := m.rules.set p v }

/-- The element `s[i]` of a constraint set. -/
def Memory.elem? {E : Type} (m : Memory E) (s : SliceRef) (i : Nat) : Option E :=
  if i < s.len then
    match m.arrays[s.array]? with
    | some a => a[i]?
    | none => none
  else none

/-- The assignment `s[i] = x` to an element of a constraint set, in place. -/
def Memory.setElem {E : Type} (m : Memory E) (s : SliceRef) (i : Nat) (x : E) : Memory E :=
  if i < s.len then
    match m.arrays[s.array]? with
    | some a => { m with arrays := m.arrays.set s.array (a.set i x) }
    | none => m
  else m

/-- The method `Clone` of the rule variable `r`: it allocates a variable `n`
with the zero value, assigns `*n = *r` and returns `n` (and the new memory).
There is no result when `r` does not point to a variable. -/
def Rule.Clone {E : Type} (m : Memory E) (r : Nat) : Option (Memory E × Nat) :=
  match m.rule? r with
  | none => none
  | some v =>
      let n := m.rules.length
      let m₁ : Memory E := { m with rules := m.rules ++ [zeroRule] }
      some (m₁.store n v, n)

/-- A sample memory: one rule variable whose constraint set has one element. -/
def sampleMemory : Memory String :=
  { rules := [{ GroupID := "pd", ID := "r1", Index := 3, Override := true,
                StartKeyHex := "", EndKeyHex := "", Role := Voter, Count := 3,
                Constraints := ⟨0, 1⟩, LocationLabels := ["zone"] }],
    arrays := [["+zone=sh"]] }

/-- The wrong-separator pattern at the index `i` of a text, in the words of the
specification: the character at `i` is a colon, the next one is an ASCII
digit, and the one before is not a double quote (34), a single quote (39) or a
colon.  The indices count characters. -/
def wrongSeparatorAt (l : List Char) (i : Nat) : Prop :=
  1 ≤ i ∧ l[i]? = some ':' ∧
    (∃ d, l[i + 1]? = some d ∧ '0' ≤ d ∧ d ≤ '9') ∧
    (∃ p, l[i - 1]? = some p ∧ p ≠ Char.ofNat 34 ∧ p ≠ Char.ofNat 39 ∧ p ≠ ':')

/-- A JSON document whose start key is the encoding of the key `[1]` and whose
end key is one byte, too short for an encoded key. -/
def sampleDocBadEndKey : List Byte :=
  textBytes ("\x7b\"group_id\":\"tiflash\",\"id\":\"r4\",\"role\":\"learner\",\"count\":1,"
    ++ "\"start_key\":\"0100000000000000f8\",\"end_key\":\"00\"\x7d")

/-- The record of `sampleDocBadEndKey`. -/
def sampleWireBadEndKey : tiFlashRule (List String) :=
  { GroupID := "tiflash", ID := "r4", Index := 0, Override := false, Role := Learner,
    Count := 1, Constraints := [], LocationLabels := [], IsolationLevel := "",
    StartKeyHex := "0100000000000000f8", EndKeyHex := "00" }

/-- A sample JSON library for the document `sampleDocBadEndKey`, on which it
agrees with `encoding/json`. -/
def sampleJsonEndKey : JsonLib (List String) where
  Marshal w :=
    if w = sampleWireBadEndKey then .ok sampleDocBadEndKey
    else .error (.foreign "json: not a sample record")
  Unmarshal doc :=
    if doc = sampleDocBadEndKey then .ok sampleWireBadEndKey
    else .error (.foreign "json: not a sample document")

/-- A sample strict decoder for two texts: one with two counts that are not
positive, one with two keys that `sampleNewConstraints` refuses. -/
def sampleYamlUnmarshalStrictInvalid (s : String) : Except String GoMap :=
  if s = "\x7b+zone=sh: 0, +zone=bj: -1\x7d" then .ok [("+zone=sh", 0), ("+zone=bj", -1)]
  else if s = "\x7bzone: 1, rack: 1\x7d" then .ok [("zone", 1), ("rack", 1)]
  else .error "yaml: cannot unmarshal into map[string]int"

/-- The sample environment with the decoder `sampleYamlUnmarshalStrictInvalid`;
the `range` loops visit the entries in the order in which they are written. -/
def sampleEnvInvalid : Env (List String) :=
  { sampleEnv with yamlUnmarshalStrict := sampleYamlUnmarshalStrictInvalid }

/-- The environment `sampleEnvInvalid` with the other visiting order. -/
def sampleEnvInvalidReversed : Env (List String) :=
  { sampleEnvInvalid with range₁ := List.reverse, range₂ := List.reverse }

/-! ## Facts about machine integers and texts -/

theorem intOfUint64_small {n : Nat} (h : n < 2 ^ 63) : intOfUint64 n = (n : Int) := by
  unfold intOfUint64
  split <;> omega

theorem intOfUint64_large {n : Nat} (h : 2 ^ 63 ≤ n) (h' : n < 2 ^ 64) :
    intOfUint64 n = (n : Int) - 2 ^ 64 := by
  unfold intOfUint64
  split <;> omega

theorem utf8ByteSize_pos_iff (s : String) : 0 < s.utf8ByteSize ↔ s ≠ "" := by
  constructor
  · intro h hs
    subst hs
    simp [String.utf8ByteSize, String.utf8ByteSize.go] at h
  · intro h
    rcases s with ⟨l⟩
    cases l with
    | nil => exact absurd rfl h
    | cons c cs =>
        simp only [String.utf8ByteSize, String.utf8ByteSize.go]
        have := Char.utf8Size_pos c
        omega

theorem contains_middle (a b c : String) : Contains (a ++ b ++ c) b :=
  ⟨a, c, rfl⟩

/-! ## The list grammar -/

/-- C1 as stated fails: the list parser accepts `[+zone=sh]`, the declared
count `2^63` is a positive `uint64`, and the one rule that `NewRules` returns
has the count `-2^63`, not `2^63`. -/
theorem NewRules_list_count_wraps :
    sampleEnv.NewConstraintsFromYaml "[+zone=sh]" = .ok ["+zone=sh"] ∧
    0 < 2 ^ 63 ∧ 2 ^ 63 < 2 ^ 64 ∧
    NewRules sampleEnv Voter (2 ^ 63) "[+zone=sh]"
      = ([NewRule Voter (2 ^ 63) ["+zone=sh"]], none) ∧
    (NewRule Voter (2 ^ 63) ["+zone=sh"]).Count = -(2 ^ 63) ∧
    (NewRule Voter (2 ^ 63) ["+zone=sh"]).Count ≠ ((2 ^ 63 : Nat) : Int) := by
  decide

/-- C1 (amended): for every role, every declared count `0 < N < 2^64` and every
text that the list parser accepts, `NewRules` returns no error and exactly one
rule, with the role of the caller, the parsed constraints and the count
`int(N)`: that is `N` when `N < 2^63` and `N - 2^64` when `N ≥ 2^63`. -/
theorem NewRules_list_one_rule {C : Type} (env : Env C) (role : PeerRoleType) (N : Nat)
    (cnstr : String) (c : C) (hpos : 0 < N) (hN : N < 2 ^ 64)
    (hlist : env.NewConstraintsFromYaml cnstr = .ok c) :
    ∃ r : Rule C, NewRules env role N cnstr = ([r], none) ∧
      r.Role = role ∧ r.Constraints = c ∧ r.Count = intOfUint64 N ∧
      (N < 2 ^ 63 → r.Count = (N : Int)) ∧
      (2 ^ 63 ≤ N → r.Count = (N : Int) - 2 ^ 64) := by
  refine ⟨NewRule role N c, ?_, rfl, rfl, rfl, ?_, ?_⟩
  · have h0 : N ≠ 0 := by omega
    simp [NewRules, hlist, h0]
  · intro h
    exact intOfUint64_small h
  · intro h
    exact intOfUint64_large h hN

/-- Witness of `NewRules_list_one_rule`: three replicas of `[+zone=sh]`. -/
theorem NewRules_list_one_rule_witness :
    ∃ r : Rule (List String), NewRules sampleEnv Voter 3 "[+zone=sh]" = ([r], none) ∧
      r.Role = Voter ∧ r.Constraints = ["+zone=sh"] ∧ r.Count = intOfUint64 3 ∧
      (3 < 2 ^ 63 → r.Count = ((3 : Nat) : Int)) ∧
      (2 ^ 63 ≤ 3 → r.Count = ((3 : Nat) : Int) - 2 ^ 64) :=
  NewRules_list_one_rule sampleEnv Voter 3 "[+zone=sh]" ["+zone=sh"]
    (by decide) (by decide) (by decide)

/-- C8: when the list parser accepts the text and the declared count is 0,
`NewRules` returns the empty list and no error for the empty text, and no rule
and an error that wraps `ErrInvalidConstraintsReplicas` for any other text. -/
theorem NewRules_list_zero_replicas {C : Type} (env : Env C) (role : PeerRoleType)
    (cnstr : String) (c : C) (hlist : env.NewConstraintsFromYaml cnstr = .ok c) :
    (cnstr = "" → NewRules env role 0 cnstr = ([], none)) ∧
    (cnstr ≠ "" → ∃ err, NewRules env role 0 cnstr = ([], some err) ∧
      err.Is .ErrInvalidConstraintsReplicas = true ∧
      err = .errorf .ErrInvalidConstraintsReplicas
        (": count of replicas should be positive, but got 0, constraint " ++ cnstr)) := by
  constructor
  · intro h
    subst h
    have h0 : ¬ 0 < ("" : String).utf8ByteSize := by decide
    simp only [NewRules, hlist, if_true, if_neg h0]
  · intro h
    have h1 : 0 < cnstr.utf8ByteSize := (utf8ByteSize_pos_iff cnstr).2 h
    have h2 : toString (0 : Nat) = "0" := by decide
    refine ⟨.errorf .ErrInvalidConstraintsReplicas
        (": count of replicas should be positive, but got 0, constraint " ++ cnstr), ?_, rfl, rfl⟩
    simp only [NewRules, hlist, if_true, gt_iff_lt, if_pos h1, h2]
    rfl

/-- Witness of `NewRules_list_zero_replicas`: the texts `[+zone=sh]`. -/
theorem NewRules_list_zero_replicas_witness :
    ("[+zone=sh]" = "" → NewRules sampleEnv Voter 0 "[+zone=sh]" = ([], none)) ∧
    ("[+zone=sh]" ≠ "" → ∃ err, NewRules sampleEnv Voter 0 "[+zone=sh]" = ([], some err) ∧
      err.Is .ErrInvalidConstraintsReplicas = true ∧
      err = .errorf .ErrInvalidConstraintsReplicas
        (": count of replicas should be positive, but got 0, constraint " ++ "[+zone=sh]")) :=
  NewRules_list_zero_replicas sampleEnv Voter "[+zone=sh]" ["+zone=sh"] (by decide)

/-- C9: when the list parser and the strict dictionary decoder both reject the
text, `NewRules` returns no rule and an error built by `fmt.Errorf` that wraps
`ErrInvalidConstraintsFormat` and whose text contains the text of the error of
the list parser and the text of the error of the decoder. -/
theorem NewRules_neither_grammar {C : Type} (env : Env C) (role : PeerRoleType)
    (replicas : Nat) (cnstr err1 err2 : String)
    (hlist : env.NewConstraintsFromYaml cnstr = .error err1)
    (hdict : env.yamlUnmarshalStrict cnstr = .error err2) :
    ∃ tail, NewRules env role replicas cnstr
        = ([], some (.errorf .ErrInvalidConstraintsFormat tail)) ∧
      (GoError.errorf .ErrInvalidConstraintsFormat tail).Is .ErrInvalidConstraintsFormat = true ∧
      ∀ txt : Sentinel → String,
        Contains ((GoError.errorf .ErrInvalidConstraintsFormat tail).Error txt) err1 ∧
        Contains ((GoError.errorf .ErrInvalidConstraintsFormat tail).Error txt) err2 := by
  refine ⟨": should be [constraint1, ...] (error " ++ err1
      ++ "), \x7bconstraint1: cnt1, ...\x7d (error " ++ err2
      ++ "), or any yaml compatible representation", ?_, rfl, ?_⟩
  · simp only [NewRules, hlist, hdict]
  · intro txt
    constructor
    · refine ⟨txt .ErrInvalidConstraintsFormat ++ ": should be [constraint1, ...] (error ",
        "), \x7bconstraint1: cnt1, ...\x7d (error " ++ err2
          ++ "), or any yaml compatible representation", ?_⟩
      simp only [GoError.Error, String.append_assoc]
    · refine ⟨txt .ErrInvalidConstraintsFormat ++ ": should be [constraint1, ...] (error "
        ++ err1 ++ "), \x7bconstraint1: cnt1, ...\x7d (error ",
        "), or any yaml compatible representation", ?_⟩
      simp only [GoError.Error, String.append_assoc]

/-- Witness of `NewRules_neither_grammar`: the text `zone` is neither a list
nor a dictionary. -/
theorem NewRules_neither_grammar_witness :
    ∃ tail, NewRules sampleEnv Voter 3 "zone"
        = ([], some (.errorf .ErrInvalidConstraintsFormat tail)) ∧
      (GoError.errorf .ErrInvalidConstraintsFormat tail).Is .ErrInvalidConstraintsFormat = true ∧
      ∀ txt : Sentinel → String,
        Contains ((GoError.errorf .ErrInvalidConstraintsFormat tail).Error txt)
          "yaml: unmarshal errors" ∧
        Contains ((GoError.errorf .ErrInvalidConstraintsFormat tail).Error txt)
          "yaml: cannot unmarshal into map[string]int" :=
  NewRules_neither_grammar sampleEnv Voter 3 "zone" "yaml: unmarshal errors"
    "yaml: cannot unmarshal into map[string]int" (by decide) (by decide)

/-! ## The dictionary grammar: auxiliary facts -/

theorem sampleEnv_WF : sampleEnv.WF := by
  refine ⟨?_, ?_, fun m => List.Perm.refl m, fun m => List.Perm.refl m⟩
  · intro s m h
    simp only [sampleEnv, sampleYamlUnmarshalStrict] at h
    split_ifs at h <;> (cases h; decide)
  · intro s m h
    simp only [sampleEnv, sampleYamlUnmarshalStrict] at h
    split_ifs at h <;> (cases h; decide)

theorem wrapInt_emod (i : Int) : wrapInt i % 2 ^ 64 = i % 2 ^ 64 := by
  unfold wrapInt intOfUint64 uint64OfInt
  split <;> omega

theorem uint64OfInt_wrapInt_add (a b : Int) :
    uint64OfInt (wrapInt a + b) = uint64OfInt (a + b) := by
  have h := wrapInt_emod a
  unfold uint64OfInt
  congr 1
  omega

theorem uint64OfInt_foldl {C : Type} (rules : List (Rule C)) (acc : Int) :
    uint64OfInt (rules.foldl (fun acc rule => wrapInt (acc + rule.Count)) acc)
      = uint64OfInt (acc + countSum rules) := by
  induction rules generalizing acc with
  | nil => simp [countSum]
  | cons r rs ih =>
      simp only [List.foldl_cons, List.map_cons, List.sum_cons, countSum] at ih ⊢
      rw [ih, uint64OfInt_wrapInt_add, add_assoc]

theorem uint64OfInt_totalCnt {C : Type} (rules : List (Rule C)) :
    uint64OfInt (totalCnt rules) = uint64OfInt (countSum rules) := by
  unfold totalCnt
  rw [uint64OfInt_foldl, zero_add]

theorem checkCounts_none {cnstr : String} {l : GoMap} (h : checkCounts cnstr l = none) :
    ∀ e ∈ l, 0 < e.2 := by
  induction l with
  | nil => simp
  | cons e rest ih =>
      obtain ⟨labels, cnt⟩ := e
      unfold checkCounts at h
      split_ifs at h with hc
      · cases hg : getYamlMapFormatError cnstr <;> simp [hg] at h
      · intro e' he'
        rcases List.mem_cons.1 he' with rfl | hmem
        · exact not_le.1 hc
        · exact ih h e' hmem

theorem checkCounts_nonpos (cnstr : String) {l : GoMap} (h : ∃ e ∈ l, e.2 ≤ 0) :
    ∃ err, checkCounts cnstr l = some err ∧
      ((getYamlMapFormatError cnstr = some err) ∨
       (getYamlMapFormatError cnstr = none ∧ ∃ labels cnt, (labels, cnt) ∈ l ∧ cnt ≤ 0 ∧
          err = .errorf .ErrInvalidConstraintsMapcnt
            (": count of labels '" ++ labels ++ "' should be positive, but got "
              ++ toString cnt))) := by
  induction l with
  | nil => simp at h
  | cons e rest ih =>
      obtain ⟨labels, cnt⟩ := e
      unfold checkCounts
      by_cases hc : cnt ≤ 0
      · rw [if_pos hc]
        cases hg : getYamlMapFormatError cnstr with
        | some err => exact ⟨err, rfl, Or.inl rfl⟩
        | none =>
            exact ⟨_, rfl, Or.inr ⟨rfl, labels, cnt, List.mem_cons_self _ _, hc, rfl⟩⟩
      · rw [if_neg hc]
        have h' : ∃ e ∈ rest, e.2 ≤ 0 := by
          obtain ⟨e, he, hle⟩ := h
          rcases List.mem_cons.1 he with rfl | hmem
          · exact absurd hle hc
          · exact ⟨e, hmem, hle⟩
        obtain ⟨err, h1, h2⟩ := ih h'
        refine ⟨err, h1, ?_⟩
        rcases h2 with h2 | ⟨h2, labels', cnt', hm, hle, herr⟩
        · exact Or.inl h2
        · exact Or.inr ⟨h2, labels', cnt', List.mem_cons_of_mem _ hm, hle, herr⟩

theorem buildRules_ok_length {C : Type} (env : Env C) (role : PeerRoleType) (l : GoMap)
    (acc rules : List (Rule C)) (h : buildRules env role l acc = (rules, none)) :
    rules.length = acc.length + l.length := by
  induction l generalizing acc with
  | nil =>
      simp only [buildRules, Prod.mk.injEq, and_true] at h
      simp [h]
  | cons e rest ih =>
      obtain ⟨labels, cnt⟩ := e
      unfold buildRules at h
      cases hp : env.preCheckDictConstraintStr labels role with
      | error err => simp [hp] at h
      | ok v =>
          obtain ⟨lbs, overrideRole⟩ := v
          cases hn : env.NewConstraints lbs with
          | error err => simp [hp, hn] at h
          | ok labelConstraints =>
              simp only [hp, hn] at h
              split_ifs at h with hc
              · simp at h
              · have := ih _ h
                simp only [List.length_append, List.length_cons, List.length_nil] at this ⊢
                omega

theorem buildRules_error_split {C : Type} (env : Env C) (role : PeerRoleType) (l : GoMap)
    (acc rules : List (Rule C)) (err : GoError) (hl : ∀ e ∈ l, e.2 ≠ 0)
    (h : buildRules env role l acc = (rules, some err)) :
    ∃ done failing rest, l = done ++ failing :: rest ∧
      buildRules env role done acc = (rules, none) ∧
      (env.preCheckDictConstraintStr failing.1 role = .error err ∨
       ∃ lbs r, env.preCheckDictConstraintStr failing.1 role = .ok (lbs, r) ∧
         env.NewConstraints lbs = .error err) := by
  induction l generalizing acc with
  | nil => simp [buildRules] at h
  | cons e rest ih =>
      obtain ⟨labels, cnt⟩ := e
      unfold buildRules at h
      cases hp : env.preCheckDictConstraintStr labels role with
      | error err' =>
          simp only [hp, Prod.mk.injEq, Option.some.injEq] at h
          obtain ⟨h1, h2⟩ := h
          subst h1 h2
          exact ⟨[], (labels, cnt), rest, rfl, rfl, Or.inl hp⟩
      | ok v =>
          obtain ⟨lbs, overrideRole⟩ := v
          cases hn : env.NewConstraints lbs with
          | error err' =>
              simp only [hp, hn, Prod.mk.injEq, Option.some.injEq] at h
              obtain ⟨h1, h2⟩ := h
              subst h1 h2
              exact ⟨[], (labels, cnt), rest, rfl, rfl, Or.inr ⟨lbs, overrideRole, hp, hn⟩⟩
          | ok labelConstraints =>
              simp only [hp, hn] at h
              have hc : cnt ≠ 0 := hl (labels, cnt) (List.mem_cons_self _ _)
              rw [if_neg hc] at h
              obtain ⟨done, failing, rest', hsplit, hdone, hfail⟩ :=
                ih _ (fun e he => hl e (List.mem_cons_of_mem _ he)) h
              refine ⟨(labels, cnt) :: done, failing, rest', by simp [hsplit], ?_, hfail⟩
              rw [buildRules]
              simp only [hp, hn, if_neg hc]
              exact hdone

/-! ## The dictionary grammar -/

/-- C2 as stated fails: for the text `{+zone=sh: 1}` the list parser fails, the
strict decode succeeds, `NewRulesWithDictConstraints` succeeds with one rule of
count 1, the declared count 2 differs from the sum 1, and `NewRules` returns
the error together with that one rule, not with zero rules. -/
theorem NewRules_dict_mismatch_keeps_rules :
    sampleEnv.NewConstraintsFromYaml "\x7b+zone=sh: 1\x7d" = .error "yaml: unmarshal errors" ∧
    sampleEnv.yamlUnmarshalStrict "\x7b+zone=sh: 1\x7d" = .ok [("+zone=sh", 1)] ∧
    NewRulesWithDictConstraints sampleEnv Voter "\x7b+zone=sh: 1\x7d"
      = ([NewRule Voter 1 ["+zone=sh"]], none) ∧
    countSum [NewRule Voter 1 ["+zone=sh"]] = 1 ∧
    NewRules sampleEnv Voter 2 "\x7b+zone=sh: 1\x7d"
      = ([NewRule Voter 1 ["+zone=sh"]],
          some (.errorf .ErrInvalidConstraintsReplicas
            ": count of replicas in dict constrains is 1, but got 2")) ∧
    (NewRules sampleEnv Voter 2 "\x7b+zone=sh: 1\x7d").1.length ≠ 0 := by
  decide

/-- C2 (amended): on the dictionary path with a declared count `N ≠ 0`,
`NewRules` returns the rules of `NewRulesWithDictConstraints` in every case:
with no error when `N` equals the sum of their counts reduced modulo `2^64`
(in particular when the sum is `N`), and otherwise together with an error that
wraps `ErrInvalidConstraintsReplicas`. -/
theorem NewRules_dict_reconcile {C : Type} (env : Env C) (role : PeerRoleType) (N : Nat)
    (cnstr err1 : String) (m : GoMap) (rules : List (Rule C))
    (hN : N ≠ 0) (hN64 : N < 2 ^ 64)
    (hlist : env.NewConstraintsFromYaml cnstr = .error err1)
    (hdict : env.yamlUnmarshalStrict cnstr = .ok m)
    (hbuild : NewRulesWithDictConstraints env role cnstr = (rules, none)) :
    ((N : Int) = countSum rules % 2 ^ 64 →
      NewRules env role N cnstr = (rules, none)) ∧
    ((N : Int) = countSum rules → NewRules env role N cnstr = (rules, none)) ∧
    ((N : Int) ≠ countSum rules % 2 ^ 64 →
      ∃ err, NewRules env role N cnstr = (rules, some err) ∧
        err.Is .ErrInvalidConstraintsReplicas = true ∧
        err = .errorf .ErrInvalidConstraintsReplicas
          (": count of replicas in dict constrains is " ++ toString (totalCnt rules)
            ++ ", but got " ++ toString N)) := by
  have hu : uint64OfInt (totalCnt rules)
      = (countSum rules % 2 ^ 64).toNat := by
    rw [uint64OfInt_totalCnt]; rfl
  have hnn : 0 ≤ countSum rules % 2 ^ 64 :=
    Int.emod_nonneg _ (by norm_num)
  have key : (N : Int) = countSum rules % 2 ^ 64 ↔
      N = uint64OfInt (totalCnt rules) := by
    rw [hu]; omega
  have hmod : (N : Int) = countSum rules % 2 ^ 64 →
      NewRules env role N cnstr = (rules, none) := by
    intro h
    have h' := key.1 h
    simp only [NewRules, hlist, hdict, hbuild]
    rw [if_neg]
    exact fun hc => hc.2 h'
  refine ⟨hmod, ?_, ?_⟩
  · intro h
    apply hmod
    omega
  · intro h
    have h' : N ≠ uint64OfInt (totalCnt rules) := fun hc => h (key.2 hc)
    refine ⟨.errorf .ErrInvalidConstraintsReplicas
          (": count of replicas in dict constrains is " ++ toString (totalCnt rules)
            ++ ", but got " ++ toString N), ?_, rfl, rfl⟩
    simp only [NewRules, hlist, hdict, hbuild]
    rw [if_pos ⟨hN, h'⟩]

/-- Witness of `NewRules_dict_reconcile`: the text `{+zone=sh: 2, +zone=bj: 1}`
with three declared replicas. -/
theorem NewRules_dict_reconcile_witness :
    NewRules sampleEnv Voter 3 "\x7b+zone=sh: 2, +zone=bj: 1\x7d"
      = ([NewRule Voter 2 ["+zone=sh"], NewRule Voter 1 ["+zone=bj"]], none) :=
  (NewRules_dict_reconcile sampleEnv Voter 3 "\x7b+zone=sh: 2, +zone=bj: 1\x7d"
    "yaml: unmarshal errors" [("+zone=sh", 2), ("+zone=bj", 1)]
    [NewRule Voter 2 ["+zone=sh"], NewRule Voter 1 ["+zone=bj"]]
    (by decide) (by decide) (by decide) (by decide) (by decide)).2.1 (by decide)

/-- C3 as stated fails: for the text `{+zone=sh: 1, zone: 1}` the label `zone`
of the second key is refused by `NewConstraints`, and
`NewRulesWithDictConstraints` (and `NewRules`) returns its error together with
the rule already built for the first key. -/
theorem NewRulesWithDictConstraints_error_keeps_rules :
    NewRulesWithDictConstraints sampleEnv Voter "\x7b+zone=sh: 1, zone: 1\x7d"
      = ([NewRule Voter 1 ["+zone=sh"]],
          some (.foreign "label constraint should be in format '\x7b+|-\x7dkey=value': zone")) ∧
    NewRules sampleEnv Voter 2 "\x7b+zone=sh: 1, zone: 1\x7d"
      = ([NewRule Voter 1 ["+zone=sh"]],
          some (.foreign "label constraint should be in format '\x7b+|-\x7dkey=value': zone")) ∧
    (NewRulesWithDictConstraints sampleEnv Voter "\x7b+zone=sh: 1, zone: 1\x7d").1 ≠ [] := by
  decide

/-- C3 (amended): when `NewRulesWithDictConstraints` returns an error, the rule
list returned with it is empty if the strict decode failed or some count is not
positive; if instead the key resolver or `NewConstraints` failed on an entry,
the list holds the rules already built for the entries visited before that
entry, one rule per entry (so it is empty exactly when the failing entry is
the first one visited). -/
theorem NewRulesWithDictConstraints_rules_on_error {C : Type} (env : Env C) (hwf : env.WF)
    (role : PeerRoleType) (cnstr : String) (rules : List (Rule C)) (err : GoError)
    (h : NewRulesWithDictConstraints env role cnstr = (rules, some err)) :
    (∀ err2, env.yamlUnmarshalStrict cnstr = .error err2 → rules = []) ∧
    (∀ m, env.yamlUnmarshalStrict cnstr = .ok m → (∃ e ∈ m, e.2 ≤ 0) → rules = []) ∧
    (∀ m, env.yamlUnmarshalStrict cnstr = .ok m → (∀ e ∈ m, 0 < e.2) →
      ∃ done failing rest, env.range₂ m = done ++ failing :: rest ∧
        buildRules env role done [] = (rules, none) ∧
        rules.length = done.length ∧
        (env.preCheckDictConstraintStr failing.1 role = .error err ∨
         ∃ lbs r, env.preCheckDictConstraintStr failing.1 role = .ok (lbs, r) ∧
           env.NewConstraints lbs = .error err)) := by
  refine ⟨?_, ?_, ?_⟩
  · intro err2 hd
    simp only [NewRulesWithDictConstraints, hd, Prod.mk.injEq] at h
    exact h.1.symm
  · intro m hd hbad
    have hbad' : ∃ e ∈ env.range₁ m, e.2 ≤ 0 := by
      obtain ⟨e, he, hle⟩ := hbad
      exact ⟨e, (hwf.range₁_perm m).mem_iff.2 he, hle⟩
    obtain ⟨err', hc, -⟩ := checkCounts_nonpos cnstr hbad'
    simp only [NewRulesWithDictConstraints, hd, hc, Prod.mk.injEq] at h
    exact h.1.symm
  · intro m hd hpos
    have hnone : checkCounts cnstr (env.range₁ m) = none := by
      cases hc : checkCounts cnstr (env.range₁ m) with
      | none => rfl
      | some err' =>
          exfalso
          have : ∀ l : GoMap, (∀ e ∈ l, 0 < e.2) → checkCounts cnstr l = none := by
            intro l
            induction l with
            | nil => intro _; rfl
            | cons e rest ih =>
                intro hl
                obtain ⟨labels, cnt⟩ := e
                have h0 : ¬ cnt ≤ 0 := not_le.2 (hl (labels, cnt) (List.mem_cons_self _ _))
                unfold checkCounts
                rw [if_neg h0]
                exact ih fun e he => hl e (List.mem_cons_of_mem _ he)
          rw [this _ fun e he => hpos e ((hwf.range₁_perm m).mem_iff.1 he)] at hc
          cases hc
    simp only [NewRulesWithDictConstraints, hd, hnone] at h
    have hne : ∀ e ∈ env.range₂ m, e.2 ≠ 0 := fun e he =>
      ne_of_gt (hpos e ((hwf.range₂_perm m).mem_iff.1 he))
    obtain ⟨done, failing, rest, hsplit, hdone, hfail⟩ :=
      buildRules_error_split env role _ [] rules err hne h
    refine ⟨done, failing, rest, hsplit, hdone, ?_, hfail⟩
    simpa using buildRules_ok_length env role done [] rules hdone

/-- Witness of `NewRulesWithDictConstraints_rules_on_error`: the text
`{+zone=sh: 1, zone: 1}`, whose second key `NewConstraints` refuses. -/
theorem NewRulesWithDictConstraints_rules_on_error_witness :
    ∃ done failing rest,
      sampleEnv.range₂ [("+zone=sh", 1), ("zone", 1)] = done ++ failing :: rest ∧
        buildRules sampleEnv Voter done [] = ([NewRule Voter 1 ["+zone=sh"]], none) ∧
        [NewRule Voter 1 ["+zone=sh"]].length = done.length ∧
        (sampleEnv.preCheckDictConstraintStr failing.1 Voter
            = .error (.foreign "label constraint should be in format '\x7b+|-\x7dkey=value': zone") ∨
         ∃ lbs r, sampleEnv.preCheckDictConstraintStr failing.1 Voter = .ok (lbs, r) ∧
           sampleEnv.NewConstraints lbs
             = .error (.foreign "label constraint should be in format '\x7b+|-\x7dkey=value': zone")) :=
  (NewRulesWithDictConstraints_rules_on_error sampleEnv sampleEnv_WF Voter
    "\x7b+zone=sh: 1, zone: 1\x7d" [NewRule Voter 1 ["+zone=sh"]]
    (.foreign "label constraint should be in format '\x7b+|-\x7dkey=value': zone") (by decide)).2.2
    [("+zone=sh", 1), ("zone", 1)] (by decide) (by decide)

/-- C10: when the strict decode succeeds and some entry has a count `≤ 0`,
`NewRulesWithDictConstraints` returns no rule, whatever the key resolver and
`NewConstraints` are, and its error is `ErrInvalidConstraintsMappingNoColonFound`
if the text has no colon, else `ErrInvalidConstraintsMappingWrongSeparator` if
the text matches `wrongSeparatorRegexp`, else an error that wraps
`ErrInvalidConstraintsMapcnt` and names an entry of the map whose count is
`≤ 0`, with that count. -/
theorem NewRulesWithDictConstraints_nonpositive_count {C : Type} (env : Env C)
    (role : PeerRoleType) (cnstr : String) (m : GoMap)
    (hdict : env.yamlUnmarshalStrict cnstr = .ok m)
    (hrange : (env.range₁ m).Perm m) (hbad : ∃ e ∈ m, e.2 ≤ 0) :
    ∃ err, NewRulesWithDictConstraints env role cnstr = ([], some err) ∧
      (':' ∉ cnstr.toList → err = .sentinel .ErrInvalidConstraintsMappingNoColonFound) ∧
      (':' ∈ cnstr.toList → wrongSeparatorRegexp.MatchString cnstr = true →
        err = .sentinel .ErrInvalidConstraintsMappingWrongSeparator) ∧
      (':' ∈ cnstr.toList → wrongSeparatorRegexp.MatchString cnstr = false →
        err.Is .ErrInvalidConstraintsMapcnt = true ∧
        ∃ labels cnt, (labels, cnt) ∈ m ∧ cnt ≤ 0 ∧
          err = .errorf .ErrInvalidConstraintsMapcnt
            (": count of labels '" ++ labels ++ "' should be positive, but got "
              ++ toString cnt)) ∧
      (∀ p n, NewRulesWithDictConstraints
          { env with preCheckDictConstraintStr := p, NewConstraints := n } role cnstr
        = ([], some err)) := by
  have hbad' : ∃ e ∈ env.range₁ m, e.2 ≤ 0 := by
    obtain ⟨e, he, hle⟩ := hbad
    exact ⟨e, hrange.mem_iff.2 he, hle⟩
  obtain ⟨err, hc, hkind⟩ := checkCounts_nonpos cnstr hbad'
  refine ⟨err, ?_, ?_, ?_, ?_, ?_⟩
  · simp only [NewRulesWithDictConstraints, hdict, hc]
  · intro hcolon
    have hg : getYamlMapFormatError cnstr
        = some (.sentinel .ErrInvalidConstraintsMappingNoColonFound) := by
      have hcolon' : ':' ∉ cnstr.data := hcolon
      simp [getYamlMapFormatError, hcolon']
    rcases hkind with h | ⟨h, -⟩
    · rw [hg] at h; exact (Option.some.inj h).symm
    · rw [hg] at h; cases h
  · intro hcolon hmatch
    have hg : getYamlMapFormatError cnstr
        = some (.sentinel .ErrInvalidConstraintsMappingWrongSeparator) := by
      have hcolon' : ':' ∈ cnstr.data := hcolon
      simp [getYamlMapFormatError, hcolon', hmatch]
    rcases hkind with h | ⟨h, -⟩
    · rw [hg] at h; exact (Option.some.inj h).symm
    · rw [hg] at h; cases h
  · intro hcolon hmatch
    have hg : getYamlMapFormatError cnstr = none := by
      have hcolon' : ':' ∈ cnstr.data := hcolon
      simp [getYamlMapFormatError, hcolon', hmatch]
    rcases hkind with h | ⟨-, labels, cnt, hm, hle, herr⟩
    · rw [hg] at h; cases h
    · subst herr
      exact ⟨rfl, labels, cnt, hrange.mem_iff.1 hm, hle, rfl⟩
  · intro p n
    simp only [NewRulesWithDictConstraints, hdict, hc]

/-- Witness of `NewRulesWithDictConstraints_nonpositive_count`: the text
`{+zone=sh:1}`, decoded as one key without a value. -/
theorem NewRulesWithDictConstraints_nonpositive_count_witness :
    ∃ err, NewRulesWithDictConstraints sampleEnv Voter "\x7b+zone=sh:1\x7d" = ([], some err) ∧
      (':' ∉ "\x7b+zone=sh:1\x7d".toList →
        err = .sentinel .ErrInvalidConstraintsMappingNoColonFound) ∧
      (':' ∈ "\x7b+zone=sh:1\x7d".toList →
        wrongSeparatorRegexp.MatchString "\x7b+zone=sh:1\x7d" = true →
        err = .sentinel .ErrInvalidConstraintsMappingWrongSeparator) ∧
      (':' ∈ "\x7b+zone=sh:1\x7d".toList →
        wrongSeparatorRegexp.MatchString "\x7b+zone=sh:1\x7d" = false →
        err.Is .ErrInvalidConstraintsMapcnt = true ∧
        ∃ labels cnt, (labels, cnt) ∈ [("+zone=sh:1", (0 : Int))] ∧ cnt ≤ 0 ∧
          err = .errorf .ErrInvalidConstraintsMapcnt
            (": count of labels '" ++ labels ++ "' should be positive, but got "
              ++ toString cnt)) ∧
      (∀ p n, NewRulesWithDictConstraints
          { sampleEnv with preCheckDictConstraintStr := p, NewConstraints := n } Voter
          "\x7b+zone=sh:1\x7d"
        = ([], some err)) :=
  NewRulesWithDictConstraints_nonpositive_count sampleEnv Voter "\x7b+zone=sh:1\x7d"
    [("+zone=sh:1", 0)] (by decide) (List.Perm.refl _) ⟨("+zone=sh:1", 0), by decide, by decide⟩

/-! ## The key codec: round trip -/

theorem hex.fromHexChar_digit (n : Fin 16) : hex.fromHexChar (hex.digit n.val) = some n.val := by
  revert n
  decide

theorem hex.decodeChars_encodeChars (l : List Byte) :
    hex.decodeChars (hex.encodeChars l) = .ok l := by
  induction l with
  | nil => rfl
  | cons v rest ih =>
      have h1 := hex.fromHexChar_digit ⟨v.val / 16, by omega⟩
      have h2 := hex.fromHexChar_digit ⟨v.val % 16, by omega⟩
      simp only at h1 h2
      simp only [hex.encodeChars, hex.decodeChars, h1, h2, ih]
      congr 2
      apply Fin.ext
      simp only [byte]
      omega

theorem hex.DecodeString_EncodeToString (l : List Byte) :
    hex.DecodeString (hex.EncodeToString l) = .ok l := by
  simp only [hex.DecodeString, hex.EncodeToString, String.toList]
  exact hex.decodeChars_encodeChars l

theorem codec.decodeLoop_encodeLoop (turns : Nat) :
    ∀ (fuel : Nat) (data extra buf : List Byte),
      turns = data.length / codec.encGroupSize + 1 → turns ≤ fuel →
      codec.decodeLoop fuel (codec.encodeLoop turns data ++ extra) buf
        = .ok (extra, buf ++ data) := by
  induction turns with
  | zero =>
      intro fuel data extra buf h
      simp only [codec.encGroupSize] at h
      omega
  | succ turns ih =>
      intro fuel data extra buf hturns hfuel
      obtain ⟨fuel, rfl⟩ : ∃ f, fuel = f + 1 := ⟨fuel - 1, by omega⟩
      simp only [codec.encGroupSize] at hturns
      by_cases hlen : 8 ≤ data.length
      · have htake : (data.take 8).length = 8 := by simp [hlen]
        have henc : codec.encodeLoop (turns + 1) data ++ extra
            = data.take 8 ++ (codec.encMarker :: (codec.encodeLoop turns (data.drop 8) ++ extra)) := by
          simp [codec.encodeLoop, codec.encGroupSize, hlen]
        have hrec := ih fuel (data.drop 8) extra (buf ++ data.take 8)
          (by simp only [codec.encGroupSize, List.length_drop]; omega) (by omega)
        rw [henc]
        unfold codec.decodeLoop
        have hlen9 : ¬ (data.take 8 ++ (codec.encMarker ::
            (codec.encodeLoop turns (data.drop 8) ++ extra))).length < codec.encGroupSize + 1 := by
          simp only [List.length_append, List.length_cons, htake, codec.encGroupSize]; omega
        rw [if_neg hlen9]
        have hgb : (data.take 8 ++ (codec.encMarker ::
            (codec.encodeLoop turns (data.drop 8) ++ extra))).take (codec.encGroupSize + 1)
            = data.take 8 ++ [codec.encMarker] := by
          rw [List.take_append_eq_append_take, htake]
          simp [codec.encGroupSize, List.take_of_length_le, htake]
        have hdrop : (data.take 8 ++ (codec.encMarker ::
            (codec.encodeLoop turns (data.drop 8) ++ extra))).drop (codec.encGroupSize + 1)
            = codec.encodeLoop turns (data.drop 8) ++ extra := by
          rw [List.drop_append_eq_append_drop, htake]
          simp [codec.encGroupSize, List.drop_of_length_le, htake]
        have hgroup : (data.take 8 ++ [codec.encMarker]).take codec.encGroupSize = data.take 8 := by
          rw [List.take_append_eq_append_take, htake]
          simp [codec.encGroupSize, List.take_of_length_le, htake]
        have hmarker : (data.take 8 ++ [codec.encMarker]).getD codec.encGroupSize 0
            = codec.encMarker := by
          simp [codec.encGroupSize, List.getD_eq_getElem?_getD, List.getElem?_append_right, htake]
        simp only [hgb, hdrop, hgroup, hmarker]
        have hpad : (codec.encMarker.val + 256 - codec.encMarker.val) % 256 = 0 := by decide
        simp only [hpad, codec.encGroupSize, Nat.sub_zero, gt_iff_lt, Nat.not_lt_zero,
          if_false, ne_eq, not_true_eq_false]
        rw [List.take_of_length_le (by simp)]
        rw [hrec]
        simp [List.append_assoc]
      · have hlen' : data.length < 8 := by omega
        have henc : codec.encodeLoop (turns + 1) data ++ extra
            = (data ++ List.replicate (8 - data.length) codec.encPad)
              ++ (byte (codec.encMarker.val + 256 - (8 - data.length)) :: extra) := by
          simp [codec.encodeLoop, codec.encGroupSize, hlen]
        have hg8 : (data ++ List.replicate (8 - data.length) codec.encPad).length = 8 := by
          simp only [List.length_append, List.length_replicate]; omega
        rw [henc]
        unfold codec.decodeLoop
        have hlen9 : ¬ ((data ++ List.replicate (8 - data.length) codec.encPad)
              ++ (byte (codec.encMarker.val + 256 - (8 - data.length)) :: extra)).length
              < codec.encGroupSize + 1 := by
          simp only [List.length_append, List.length_cons, List.length_replicate,
            codec.encGroupSize]; omega
        rw [if_neg hlen9]
        have hgb : ((data ++ List.replicate (8 - data.length) codec.encPad)
              ++ (byte (codec.encMarker.val + 256 - (8 - data.length)) :: extra)).take
                (codec.encGroupSize + 1)
            = (data ++ List.replicate (8 - data.length) codec.encPad)
              ++ [byte (codec.encMarker.val + 256 - (8 - data.length))] := by
          rw [List.take_append_eq_append_take, hg8]
          simp [codec.encGroupSize, List.take_of_length_le, hg8]
        have hdrop : ((data ++ List.replicate (8 - data.length) codec.encPad)
              ++ (byte (codec.encMarker.val + 256 - (8 - data.length)) :: extra)).drop
                (codec.encGroupSize + 1) = extra := by
          rw [List.drop_append_eq_append_drop, hg8]
          simp [codec.encGroupSize, List.drop_of_length_le, hg8]
        have hgroup : ((data ++ List.replicate (8 - data.length) codec.encPad)
              ++ [byte (codec.encMarker.val + 256 - (8 - data.length))]).take codec.encGroupSize
            = data ++ List.replicate (8 - data.length) codec.encPad := by
          rw [List.take_append_eq_append_take, hg8]
          simp [codec.encGroupSize, List.take_of_length_le, hg8]
        have hmarker : ((data ++ List.replicate (8 - data.length) codec.encPad)
              ++ [byte (codec.encMarker.val + 256 - (8 - data.length))]).getD
                codec.encGroupSize 0
            = byte (codec.encMarker.val + 256 - (8 - data.length)) := by
          simp only [codec.encGroupSize, List.getD_eq_getElem?_getD]
          rw [List.getElem?_append_right (by omega)]
          simp [hg8]
        simp only [hgb, hdrop, hgroup, hmarker]
        have hpad : (codec.encMarker.val + 256
            - (byte (codec.encMarker.val + 256 - (8 - data.length))).val) % 256
            = 8 - data.length := by
          have : codec.encMarker.val = 255 := rfl
          simp only [byte, this]
          omega
        have h1 : ¬ 8 - data.length > codec.encGroupSize := by
          simp only [codec.encGroupSize]; omega
        have h2 : 8 - data.length ≠ 0 := by omega
        have h3 : codec.encGroupSize - (8 - data.length) = data.length := by
          simp only [codec.encGroupSize]; omega
        simp only [hpad, if_neg h1, h3, if_pos h2]
        have h4 : (data ++ List.replicate (8 - data.length) codec.encPad).take data.length
            = data := by simp
        have h5 : (data ++ List.replicate (8 - data.length) codec.encPad).drop data.length
            = List.replicate (8 - data.length) codec.encPad := by simp
        rw [h4, h5]
        simp

theorem codec.decodeLoop_fuel (f₁ : Nat) :
    ∀ (f₂ : Nat) (b buf : List Byte), b.length / 9 + 1 ≤ f₁ → b.length / 9 + 1 ≤ f₂ →
      codec.decodeLoop f₁ b buf = codec.decodeLoop f₂ b buf := by
  induction f₁ with
  | zero => intro f₂ b buf h; omega
  | succ f₁ ih =>
      intro f₂ b buf h₁ h₂
      obtain ⟨f₂, rfl⟩ : ∃ f, f₂ = f + 1 := ⟨f₂ - 1, by omega⟩
      unfold codec.decodeLoop
      by_cases hlen : b.length < codec.encGroupSize + 1
      · simp only [if_pos hlen]
      · simp only [if_neg hlen]
        simp only [codec.encGroupSize] at hlen
        have hrec := fun buf' => ih f₂ (b.drop (codec.encGroupSize + 1)) buf'
          (by simp only [codec.encGroupSize, List.length_drop]; omega)
          (by simp only [codec.encGroupSize, List.length_drop]; omega)
        simp only [hrec]

theorem codec.DecodeBytes_EncodeBytes (data extra : List Byte) :
    codec.DecodeBytes (codec.EncodeBytes [] data ++ extra) = .ok (extra, data) := by
  have hlen : ∀ (turns : Nat) (d : List Byte), turns = d.length / 8 + 1 →
      (codec.encodeLoop turns d).length = 9 * turns := by
    intro turns
    induction turns with
    | zero => intro d h; omega
    | succ turns ih =>
        intro d h
        by_cases hl : 8 ≤ d.length
        · have := ih (d.drop 8) (by simp only [List.length_drop]; omega)
          simp only [codec.encodeLoop, codec.encGroupSize, hl, if_true, List.length_append,
            List.length_take, List.length_cons, List.length_nil, this]
          omega
        · simp only [codec.encodeLoop, codec.encGroupSize, hl, if_false, List.length_append,
            List.length_replicate, List.length_cons, List.length_nil]
          omega
  unfold codec.DecodeBytes codec.EncodeBytes
  have h := codec.decodeLoop_encodeLoop (data.length / codec.encGroupSize + 1)
    (([] ++ codec.encodeLoop (data.length / codec.encGroupSize + 1) data ++ extra).length
      / (codec.encGroupSize + 1) + 1) data extra [] rfl
    (by
      simp only [List.nil_append, List.length_append, codec.encGroupSize,
        hlen (data.length / 8 + 1) data rfl]
      omega)
  simpa using h

/-! ## The JSON form of the columnar rule -/

theorem TiFlashRule.UnmarshalJSON_of_keys {C : Type} (json : JsonLib C) (r : TiFlashRule C)
    (bytes : List Byte) (rule : tiFlashRule C) (startKey endKey left₁ key₁ left₂ key₂ : List Byte)
    (hjson : json.Unmarshal bytes = .ok rule)
    (hs : hex.DecodeString rule.StartKeyHex = .ok startKey)
    (he : hex.DecodeString rule.EndKeyHex = .ok endKey)
    (hds : codec.DecodeBytes startKey = .ok (left₁, key₁))
    (hde : codec.DecodeBytes endKey = .ok (left₂, key₂)) :
    TiFlashRule.UnmarshalJSON json r bytes
      = ({ rule.assigned with StartKey := key₁, EndKey := key₂ }, none) := by
  simp only [TiFlashRule.UnmarshalJSON, hjson, hs, he, hds, hde]

/-- C4: round trip of the columnar rule.  If `MarshalJSON` of `r` produces the
document `bytes`, and the JSON library reads back the record of `r` from the
document that it writes for it, then `UnmarshalJSON` on `bytes` succeeds for every receiver and leaves
in it exactly `r`: the two keys byte for byte and every other field.  At the
key level, hex-decoding and then `codec.DecodeBytes` undo `codec.EncodeBytes`
followed by hex-encoding, with nothing left over. -/
theorem TiFlashRule.UnmarshalJSON_MarshalJSON {C : Type} (json : JsonLib C)
    (r r₀ : TiFlashRule C) (bytes : List Byte)
    (hm : TiFlashRule.MarshalJSON json r = .ok bytes)
    (hlib : ∀ doc, json.Marshal r.wire = .ok doc → json.Unmarshal doc = .ok r.wire) :
    TiFlashRule.UnmarshalJSON json r₀ bytes = (r, none) ∧
    (∀ key : List Byte,
      (hex.DecodeString (hex.EncodeToString (codec.EncodeBytes [] key))).bind codec.DecodeBytes
        = .ok ([], key)) := by
  have hkey : ∀ key : List Byte,
      codec.DecodeBytes (codec.EncodeBytes [] key) = .ok ([], key) := by
    intro key
    simpa using codec.DecodeBytes_EncodeBytes key []
  have hjson : json.Unmarshal bytes = .ok r.wire := hlib bytes hm
  constructor
  · rw [TiFlashRule.UnmarshalJSON_of_keys json r₀ bytes r.wire _ _ [] r.StartKey [] r.EndKey hjson
      (hex.DecodeString_EncodeToString _) (hex.DecodeString_EncodeToString _)
      (hkey _) (hkey _)]
    rfl
  · intro key
    rw [hex.DecodeString_EncodeToString]
    exact hkey key

set_option maxRecDepth 8000 in
/-- Witness of `TiFlashRule.UnmarshalJSON_MarshalJSON`: the sample rule and its
document, read into another rule. -/
theorem TiFlashRule.UnmarshalJSON_MarshalJSON_witness :
    TiFlashRule.UnmarshalJSON sampleJson sampleWireBadHex.assigned sampleDoc
      = (sampleRule, none) :=
  (TiFlashRule.UnmarshalJSON_MarshalJSON sampleJson sampleRule sampleWireBadHex.assigned
    sampleDoc (by decide)
    (by
      intro doc h
      have hd : doc = sampleDoc := by
        have h' : sampleJson.Marshal sampleRule.wire = .ok sampleDoc := by decide
        rw [h'] at h
        exact (Except.ok.inj h).symm
      subst hd
      decide)).1

/-- C6 as stated fails: the start key of the document `sampleDocBadHex` is not a
hex text; `UnmarshalJSON` returns the error of `hex.DecodeString` and the
receiver, which was `sampleRule`, now holds the fields of the document. -/
theorem TiFlashRule.UnmarshalJSON_error_overwrites :
    TiFlashRule.UnmarshalJSON sampleJson sampleRule sampleDocBadHex
      = (sampleWireBadHex.assigned,
          some (.foreign "encoding/hex: invalid byte: U+007A 'z'")) ∧
    sampleWireBadHex.assigned ≠ sampleRule ∧
    sampleWireBadHex.assigned.ID = "r3" ∧ sampleRule.ID = "r1" := by
  decide

/-- C6 (amended): the receiver after `UnmarshalJSON`, stage by stage.  If
`json.Unmarshal` fails, the receiver is left exactly as it was.  Otherwise it
is overwritten with the fields of the document.  If the hex text of the start
key or of the end key is malformed, or the encoding of the start key does not
decode, both its keys are `nil`; if only the encoding of the end key does not
decode, its start key is the decoded start key and its end key is `nil`.  In
each of these cases the error returned is the error of the failing stage, and
when no stage fails there is no error and both keys are the decoded ones. -/
theorem TiFlashRule.UnmarshalJSON_receiver_on_error {C : Type} (json : JsonLib C)
    (r : TiFlashRule C) (bytes : List Byte) :
    (∀ err, json.Unmarshal bytes = .error err →
      TiFlashRule.UnmarshalJSON json r bytes = (r, some err)) ∧
    (∀ rule, json.Unmarshal bytes = .ok rule →
      (∀ err, hex.DecodeString rule.StartKeyHex = .error err →
        TiFlashRule.UnmarshalJSON json r bytes = (rule.assigned, some err)) ∧
      (∀ startKey err, hex.DecodeString rule.StartKeyHex = .ok startKey →
        hex.DecodeString rule.EndKeyHex = .error err →
        TiFlashRule.UnmarshalJSON json r bytes = (rule.assigned, some err)) ∧
      (∀ startKey endKey err, hex.DecodeString rule.StartKeyHex = .ok startKey →
        hex.DecodeString rule.EndKeyHex = .ok endKey →
        codec.DecodeBytes startKey = .error err →
        TiFlashRule.UnmarshalJSON json r bytes = (rule.assigned, some err)) ∧
      (∀ startKey endKey left key err, hex.DecodeString rule.StartKeyHex = .ok startKey →
        hex.DecodeString rule.EndKeyHex = .ok endKey →
        codec.DecodeBytes startKey = .ok (left, key) →
        codec.DecodeBytes endKey = .error err →
        TiFlashRule.UnmarshalJSON json r bytes
          = ({ rule.assigned with StartKey := key, EndKey := [] }, some err)) ∧
      (∀ startKey endKey left₁ key₁ left₂ key₂,
        hex.DecodeString rule.StartKeyHex = .ok startKey →
        hex.DecodeString rule.EndKeyHex = .ok endKey →
        codec.DecodeBytes startKey = .ok (left₁, key₁) →
        codec.DecodeBytes endKey = .ok (left₂, key₂) →
        TiFlashRule.UnmarshalJSON json r bytes
          = ({ rule.assigned with StartKey := key₁, EndKey := key₂ }, none))) := by
  constructor
  · intro err hj
    simp only [TiFlashRule.UnmarshalJSON, hj]
  · intro rule hj
    refine ⟨?_, ?_, ?_, ?_, ?_⟩
    · intro err hs
      simp only [TiFlashRule.UnmarshalJSON, hj, hs]
    · intro startKey err hs he
      simp only [TiFlashRule.UnmarshalJSON, hj, hs, he]
    · intro startKey endKey err hs he hds
      simp only [TiFlashRule.UnmarshalJSON, hj, hs, he, hds]
      rfl
    · intro startKey endKey left key err hs he hds hde
      simp only [TiFlashRule.UnmarshalJSON, hj, hs, he, hds, hde]
    · intro startKey endKey left₁ key₁ left₂ key₂ hs he hds hde
      simp only [TiFlashRule.UnmarshalJSON, hj, hs, he, hds, hde]

/-- Witness of `TiFlashRule.UnmarshalJSON_receiver_on_error`: the document
`sampleDocBadEndKey` read into `sampleRule`; only its end key fails to decode,
and the receiver keeps the decoded start key `[1]`. -/
theorem TiFlashRule.UnmarshalJSON_receiver_on_error_witness :
    TiFlashRule.UnmarshalJSON sampleJsonEndKey sampleRule sampleDocBadEndKey
      = ({ sampleWireBadEndKey.assigned with StartKey := [1], EndKey := [] },
          some codec.errInsufficient) :=
  ((TiFlashRule.UnmarshalJSON_receiver_on_error sampleJsonEndKey sampleRule
    sampleDocBadEndKey).2 sampleWireBadEndKey (by decide)).2.2.2.1
    [1, 0, 0, 0, 0, 0, 0, 0, 248] [0] [] [1] codec.errInsufficient
    (by decide) (by decide) (by decide) (by decide)

/-! ## The key codec: order -/

theorem codec.encAux_group (p rest : List Byte) :
    ∀ n, n ≤ 7 → n + p.length = 8 →
      codec.encAux n (p ++ rest) = p ++ codec.encMarker :: codec.encAux 0 rest := by
  induction p with
  | nil => intro n h1 h2; simp at h2; omega
  | cons x p ih =>
      intro n h1 h2
      simp only [List.length_cons] at h2
      by_cases h7 : n = 7
      · have hp : p = [] := List.length_eq_zero.1 (by omega)
        subst hp
        simp [codec.encAux, h7]
      · have := ih (n + 1) (by omega) (by omega)
        rw [List.cons_append, codec.encAux, if_neg h7, this, List.cons_append]

theorem codec.encAux_last (p : List Byte) :
    ∀ n, n + p.length < 8 →
      codec.encAux n p
        = p ++ List.replicate (8 - n - p.length) codec.encPad ++ [byte (247 + n + p.length)] := by
  induction p with
  | nil => intro n _; simp [codec.encAux]
  | cons x p ih =>
      intro n h
      simp only [List.length_cons] at h
      have h7 : n ≠ 7 := by omega
      have := ih (n + 1) (by omega)
      simp only [codec.encAux, if_neg h7, this, List.length_cons, List.cons_append]
      have e1 : 8 - (n + 1) - p.length = 8 - n - (p.length + 1) := by omega
      have e2 : 247 + (n + 1) + p.length = 247 + n + (p.length + 1) := by omega
      rw [e1, e2]

theorem codec.encodeLoop_eq_encAux (turns : Nat) :
    ∀ data : List Byte, turns = data.length / 8 + 1 →
      codec.encodeLoop turns data = codec.encAux 0 data := by
  induction turns with
  | zero => intro data h; omega
  | succ turns ih =>
      intro data h
      by_cases hlen : 8 ≤ data.length
      · have hrec := ih (data.drop 8) (by simp only [List.length_drop]; omega)
        have hsplit : codec.encAux 0 (data.take 8 ++ data.drop 8)
            = data.take 8 ++ codec.encMarker :: codec.encAux 0 (data.drop 8) :=
          codec.encAux_group (data.take 8) (data.drop 8) 0 (by omega)
            (by simp only [List.length_take]; omega)
        rw [List.take_append_drop] at hsplit
        simp only [codec.encodeLoop, codec.encGroupSize, hlen, if_true, hrec, hsplit,
          List.append_assoc, List.singleton_append]
      · have hlast := codec.encAux_last data 0 (by omega)
        simp only [codec.encodeLoop, codec.encGroupSize, hlen, if_false, hlast]
        have e : byte (codec.encMarker.val + 256 - (8 - data.length))
            = byte (247 + 0 + data.length) := by
          apply Fin.ext
          have : codec.encMarker.val = 255 := rfl
          simp only [byte, this]
          omega
        simp only [e, Nat.sub_zero]

theorem codec.encodeLoop_encAux (data : List Byte) :
    codec.EncodeBytes [] data = codec.encAux 0 data := by
  simp only [codec.EncodeBytes, codec.encGroupSize, List.nil_append]
  exact codec.encodeLoop_eq_encAux _ data rfl

theorem codec.pad_lex_encAux (l : List Byte) :
    ∀ (n : Nat) (v : Byte), n ≤ 7 → v.val < 247 + n →
      List.Lex (· < ·) (List.replicate (8 - n) codec.encPad ++ [v]) (codec.encAux n l) := by
  induction l with
  | nil =>
      intro n v hn hv
      simp only [codec.encAux]
      apply List.Lex.append_left
      apply List.Lex.rel
      show v.val < (byte (247 + n)).val
      simp only [byte]
      omega
  | cons y ys ih =>
      intro n v hn hv
      have hrep : List.replicate (8 - n) codec.encPad
          = codec.encPad :: List.replicate (8 - (n + 1)) codec.encPad := by
        have : 8 - n = (8 - (n + 1)) + 1 := by omega
        rw [this, List.replicate_succ]
      rw [hrep]
      by_cases hy : y = codec.encPad
      · subst hy
        by_cases h7 : n = 7
        · subst h7
          simp only [codec.encAux, if_true, List.cons_append]
          apply List.Lex.cons
          apply List.Lex.rel
          show v.val < codec.encMarker.val
          have : codec.encMarker.val = 255 := rfl
          omega
        · simp only [codec.encAux, if_neg h7, List.cons_append]
          apply List.Lex.cons
          exact ih (n + 1) v (by omega) (by omega)
      · have hlt : codec.encPad < y := by
          have h0 : codec.encPad.val = 0 := rfl
          have hne : y.val ≠ 0 := fun h => hy (Fin.ext (by rw [h, h0]))
          show codec.encPad.val < y.val
          omega
        by_cases h7 : n = 7
        · simp only [codec.encAux, if_pos h7, List.cons_append]
          exact List.Lex.rel hlt
        · simp only [codec.encAux, if_neg h7, List.cons_append]
          exact List.Lex.rel hlt

theorem codec.encAux_lex {a b : List Byte} (h : List.Lex (· < ·) a b) :
    ∀ n, n ≤ 7 → List.Lex (· < ·) (codec.encAux n a) (codec.encAux n b) := by
  induction h with
  | @nil y ys =>
      intro n hn
      have hv : (byte (247 + n)).val < 247 + (n + 1) := by
        simp only [byte]; omega
      by_cases h7 : n = 7
      · subst h7
        by_cases hy : y = codec.encPad
        · subst hy
          simp only [codec.encAux, if_true]
          exact List.Lex.cons (List.Lex.rel (by decide))
        · have hlt : codec.encPad < y := by
            have h0 : codec.encPad.val = 0 := rfl
            have hne : y.val ≠ 0 := fun h => hy (Fin.ext (by rw [h, h0]))
            show codec.encPad.val < y.val
            omega
          simp only [codec.encAux, if_true]
          exact List.Lex.rel hlt
      · have hrep : List.replicate (8 - n) codec.encPad
            = codec.encPad :: List.replicate (8 - (n + 1)) codec.encPad := by
          have : 8 - n = (8 - (n + 1)) + 1 := by omega
          rw [this, List.replicate_succ]
        by_cases hy : y = codec.encPad
        · subst hy
          simp only [codec.encAux, if_neg h7, hrep, List.cons_append]
          apply List.Lex.cons
          exact codec.pad_lex_encAux ys (n + 1) _ (by omega) hv
        · have hlt : codec.encPad < y := by
            have h0 : codec.encPad.val = 0 := rfl
            have hne : y.val ≠ 0 := fun h => hy (Fin.ext (by rw [h, h0]))
            show codec.encPad.val < y.val
            omega
          simp only [codec.encAux, if_neg h7, hrep, List.cons_append]
          exact List.Lex.rel hlt
  | @cons x a' b' _ ih =>
      intro n hn
      by_cases h7 : n = 7
      · simp only [codec.encAux, if_pos h7]
        exact List.Lex.cons (List.Lex.cons (ih 0 (by omega)))
      · simp only [codec.encAux, if_neg h7]
        exact List.Lex.cons (ih (n + 1) (by omega))
  | @rel x a' y b' hxy =>
      intro n hn
      by_cases h7 : n = 7
      · simp only [codec.encAux, if_pos h7]
        exact List.Lex.rel hxy
      · simp only [codec.encAux, if_neg h7]
        exact List.Lex.rel hxy

theorem hex.digit_lt (i j : Fin 16) : i < j → hex.digit i.val < hex.digit j.val := by
  revert i j
  decide

theorem hex.encodeChars_lex {a b : List Byte} (h : List.Lex (· < ·) a b) :
    List.Lex (· < ·) (hex.encodeChars a) (hex.encodeChars b) := by
  induction h with
  | @nil y ys => exact List.Lex.nil
  | @cons x a' b' _ ih => exact List.Lex.cons (List.Lex.cons ih)
  | @rel x a' y b' hxy =>
      have hxy' : x.val < y.val := hxy
      simp only [hex.encodeChars]
      by_cases hhi : x.val / 16 < y.val / 16
      · exact List.Lex.rel
          (hex.digit_lt ⟨x.val / 16, by omega⟩ ⟨y.val / 16, by omega⟩ hhi)
      · have heq : x.val / 16 = y.val / 16 := by omega
        have hlo : x.val % 16 < y.val % 16 := by omega
        rw [heq]
        exact List.Lex.cons (List.Lex.rel
          (hex.digit_lt ⟨x.val % 16, by omega⟩ ⟨y.val % 16, by omega⟩ hlo))

theorem keyText_strictMono :
    StrictMono fun a : List Byte => hex.encodeChars (codec.EncodeBytes [] a) := by
  intro a b hab
  have h : List.Lex (· < ·) a b := hab
  show List.Lex (· < ·) (hex.encodeChars (codec.EncodeBytes [] a))
    (hex.encodeChars (codec.EncodeBytes [] b))
  rw [codec.encodeLoop_encAux, codec.encodeLoop_encAux]
  exact hex.encodeChars_lex (codec.encAux_lex h 0 (by omega))

theorem keyText_order (a b : List Byte) :
    (textLess (hex.EncodeToString (codec.EncodeBytes [] a))
        (hex.EncodeToString (codec.EncodeBytes [] b)) ↔ bytesLess a b) ∧
    (hex.EncodeToString (codec.EncodeBytes [] a) = hex.EncodeToString (codec.EncodeBytes [] b)
      ↔ a = b) := by
  constructor
  · exact keyText_strictMono.lt_iff_lt
  · constructor
    · intro h
      have h' : hex.encodeChars (codec.EncodeBytes [] a)
          = hex.encodeChars (codec.EncodeBytes [] b) := by
        have := congrArg String.toList h
        simpa [hex.EncodeToString] using this
      exact keyText_strictMono.injective h'
    · intro h
      rw [h]

/-- C7: order preservation of the key wire form.  `MarshalJSON` writes the JSON
document of the record `wire`, whose `start_key` and `end_key` are the hex
texts `hex.EncodeToString(codec.EncodeBytes(nil, key))` of the keys of the
rule.  For all rules the `start_key` text of one is lexicographically less
than (equal to) the `start_key` text of the other exactly when its start key
is lexicographically less than (equal to) the other start key; the same holds
for the `end_key` texts, and between the `start_key` and the `end_key` text of
one rule; and it holds for the texts of any two byte sequences `a` and `b`. -/
theorem MarshalJSON_key_order {C : Type} (json : JsonLib C) (r₁ r₂ : TiFlashRule C) :
    TiFlashRule.MarshalJSON json r₁ = json.Marshal r₁.wire ∧
    r₁.wire.StartKeyHex = hex.EncodeToString (codec.EncodeBytes [] r₁.StartKey) ∧
    r₁.wire.EndKeyHex = hex.EncodeToString (codec.EncodeBytes [] r₁.EndKey) ∧
    (textLess r₁.wire.StartKeyHex r₂.wire.StartKeyHex ↔ bytesLess r₁.StartKey r₂.StartKey) ∧
    (r₁.wire.StartKeyHex = r₂.wire.StartKeyHex ↔ r₁.StartKey = r₂.StartKey) ∧
    (textLess r₁.wire.EndKeyHex r₂.wire.EndKeyHex ↔ bytesLess r₁.EndKey r₂.EndKey) ∧
    (r₁.wire.EndKeyHex = r₂.wire.EndKeyHex ↔ r₁.EndKey = r₂.EndKey) ∧
    (textLess r₁.wire.StartKeyHex r₁.wire.EndKeyHex ↔ bytesLess r₁.StartKey r₁.EndKey) ∧
    (r₁.wire.StartKeyHex = r₁.wire.EndKeyHex ↔ r₁.StartKey = r₁.EndKey) ∧
    (∀ a b : List Byte,
      (textLess (hex.EncodeToString (codec.EncodeBytes [] a))
          (hex.EncodeToString (codec.EncodeBytes [] b)) ↔ bytesLess a b) ∧
      (hex.EncodeToString (codec.EncodeBytes [] a)
          = hex.EncodeToString (codec.EncodeBytes [] b) ↔ a = b)) :=
  ⟨rfl, rfl, rfl,
    (keyText_order r₁.StartKey r₂.StartKey).1, (keyText_order r₁.StartKey r₂.StartKey).2,
    (keyText_order r₁.EndKey r₂.EndKey).1, (keyText_order r₁.EndKey r₂.EndKey).2,
    (keyText_order r₁.StartKey r₁.EndKey).1, (keyText_order r₁.StartKey r₁.EndKey).2,
    keyText_order⟩

/-! ## The construction loop, entry by entry -/

theorem buildRules_ok_iff {C : Type} (env : Env C) (role : PeerRoleType) (l : GoMap) :
    ∀ acc rules : List (Rule C),
      buildRules env role l acc = (rules, none) ↔
        (∀ e ∈ l, e.2 ≠ 0 ∧ ∃ r, entryRule env role e = .ok r) ∧
        rules = acc ++ l.filterMap fun e => (entryRule env role e).toOption := by
  induction l with
  | nil =>
      intro acc rules
      simp [buildRules, eq_comm]
  | cons e rest ih =>
      intro acc rules
      obtain ⟨labels, cnt⟩ := e
      unfold buildRules
      cases hp : env.preCheckDictConstraintStr labels role with
      | error err => simp [entryRule, hp]
      | ok v =>
          obtain ⟨lbs, overrideRole⟩ := v
          cases hn : env.NewConstraints lbs with
          | error err => simp [entryRule, hp, hn]
          | ok labelConstraints =>
              by_cases hc : cnt = 0
              · simp [hp, hn, hc]
              · simp only [hp, hn, if_neg hc, ih]
                simp [entryRule, hp, hn, hc, Except.toOption]

theorem checkCounts_of_pos (cnstr : String) (l : GoMap) (h : ∀ e ∈ l, 0 < e.2) :
    checkCounts cnstr l = none := by
  induction l with
  | nil => rfl
  | cons e rest ih =>
      obtain ⟨labels, cnt⟩ := e
      have h0 : ¬ cnt ≤ 0 := not_le.2 (h (labels, cnt) (List.mem_cons_self _ _))
      unfold checkCounts
      rw [if_neg h0]
      exact ih fun e he => h e (List.mem_cons_of_mem _ he)

theorem entryRule_ok {C : Type} {env : Env C} {role : PeerRoleType} {e : String × Int}
    {rule : Rule C} (h : entryRule env role e = .ok rule) :
    ∃ lbs overrideRole c, env.preCheckDictConstraintStr e.1 role = .ok (lbs, overrideRole) ∧
      env.NewConstraints lbs = .ok c ∧ rule = NewRule overrideRole (uint64OfInt e.2) c := by
  unfold entryRule at h
  cases hp : env.preCheckDictConstraintStr e.1 role with
  | error err => simp [hp] at h
  | ok v =>
      obtain ⟨lbs, overrideRole⟩ := v
      cases hn : env.NewConstraints lbs with
      | error err => simp [hp, hn] at h
      | ok c =>
          simp only [hp, hn, Except.ok.injEq] at h
          exact ⟨lbs, overrideRole, c, rfl, hn, h.symm⟩

theorem intOfUint64_uint64OfInt {i : Int} (h0 : 0 ≤ i) (h1 : i < 2 ^ 63) :
    intOfUint64 (uint64OfInt i) = i := by
  unfold intOfUint64 uint64OfInt
  split <;> omega

theorem entryRule_of_keys {C : Type} {env : Env C} {role : PeerRoleType} {e : String × Int}
    {lbs : List String} {r : PeerRoleType} {c : C}
    (hp : env.preCheckDictConstraintStr e.1 role = .ok (lbs, r))
    (hn : env.NewConstraints lbs = .ok c) :
    entryRule env role e = .ok (NewRule r (uint64OfInt e.2) c) := by
  simp only [entryRule, hp, hn]

theorem forall₂_filterMap_entryRule {C : Type} (env : Env C) (role : PeerRoleType) (l : GoMap)
    (hint : ∀ e ∈ l, 0 < e.2 ∧ e.2 < 2 ^ 63)
    (hkeys : ∀ e ∈ l, ∃ lbs r c, env.preCheckDictConstraintStr e.1 role = .ok (lbs, r) ∧
      env.NewConstraints lbs = .ok c) :
    List.Forall₂
      (fun e rule => ∃ lbs r c, env.preCheckDictConstraintStr e.1 role = .ok (lbs, r) ∧
        env.NewConstraints lbs = .ok c ∧ rule.Count = e.2 ∧ rule.Role = r ∧
        rule.Constraints = c)
      l (l.filterMap fun e => (entryRule env role e).toOption) := by
  induction l with
  | nil => exact List.Forall₂.nil
  | cons e rest ih =>
      obtain ⟨lbs, r, c, hp, hn⟩ := hkeys e (List.mem_cons_self _ _)
      obtain ⟨h0, h1⟩ := hint e (List.mem_cons_self _ _)
      have hrule := entryRule_of_keys hp hn
      have hsome : (entryRule env role e).toOption = some (NewRule r (uint64OfInt e.2) c) := by
        rw [hrule]; rfl
      have hcons : (e :: rest).filterMap (fun e => (entryRule env role e).toOption)
          = NewRule r (uint64OfInt e.2) c
            :: rest.filterMap (fun e => (entryRule env role e).toOption) := by
        simp only [List.filterMap_cons, hsome]
      rw [hcons]
      refine List.Forall₂.cons ⟨lbs, r, c, hp, hn, ?_, rfl, rfl⟩
        (ih (fun e he => hint e (List.mem_cons_of_mem _ he))
          (fun e he => hkeys e (List.mem_cons_of_mem _ he)))
      exact intOfUint64_uint64OfInt (le_of_lt h0) h1

theorem countSum_of_forall₂ {C : Type} {R : String × Int → Rule C → Prop}
    (hR : ∀ e rule, R e rule → rule.Count = e.2) {l : GoMap} {rules : List (Rule C)}
    (h : List.Forall₂ R l rules) : countSum rules = (l.map Prod.snd).sum := by
  induction h with
  | nil => rfl
  | cons hhead _ ih =>
      simp only [countSum, List.map_cons, List.sum_cons] at ih ⊢
      rw [ih, hR _ _ hhead]

/-! ## List-grammar precedence and the rules of the dictionary grammar -/

/-- C11: list-grammar precedence.  When the list parser accepts the text, the
result of `NewRules` is the one of the list grammar: for a declared count
other than 0 it is exactly the one rule built from the role, the declared
count and the constraints of the list parser, with no error; for the declared
count 0 it is no rule, with no error for the empty text and with the
`ErrInvalidConstraintsReplicas` error for any other text.  So it has at most
one rule, and it is the same for every strict dictionary decoder, key
resolver, label validator and visiting order (hence whatever
`NewRulesWithDictConstraints` would return). -/
theorem NewRules_list_precedence {C : Type} (env : Env C) (role : PeerRoleType)
    (replicas : Nat) (cnstr : String) (c : C)
    (hlist : env.NewConstraintsFromYaml cnstr = .ok c) :
    NewRules env role replicas cnstr
      = (if replicas = 0 then
          if cnstr = "" then ([], none)
          else ([], some (.errorf .ErrInvalidConstraintsReplicas
            (": count of replicas should be positive, but got " ++ toString replicas
              ++ ", constraint " ++ cnstr)))
        else ([NewRule role replicas c], none)) ∧
    (NewRules env role replicas cnstr).1.length ≤ 1 ∧
    (∀ r ∈ (NewRules env role replicas cnstr).1, r = NewRule role replicas c) ∧
    (∀ env' : Env C, env'.NewConstraintsFromYaml cnstr = .ok c →
      NewRules env' role replicas cnstr = NewRules env role replicas cnstr) := by
  have hval : ∀ env' : Env C, env'.NewConstraintsFromYaml cnstr = .ok c →
      NewRules env' role replicas cnstr
        = if replicas = 0 then
            if cnstr = "" then ([], none)
            else ([], some (.errorf .ErrInvalidConstraintsReplicas
              (": count of replicas should be positive, but got " ++ toString replicas
                ++ ", constraint " ++ cnstr)))
          else ([NewRule role replicas c], none) := by
    intro env' h'
    simp only [NewRules, h', List.nil_append]
    by_cases h0 : replicas = 0
    · simp only [if_pos h0]
      by_cases he : cnstr = ""
      · have hsz : ¬ cnstr.utf8ByteSize > 0 := fun h => (utf8ByteSize_pos_iff cnstr).1 h he
        rw [if_neg hsz, if_pos he]
      · have hsz : cnstr.utf8ByteSize > 0 := (utf8ByteSize_pos_iff cnstr).2 he
        rw [if_pos hsz, if_neg he]
    · simp only [if_neg h0]
  refine ⟨hval env hlist, ?_, ?_, fun env' h' => by rw [hval env' h', hval env hlist]⟩
  · rw [hval env hlist]
    split_ifs <;> simp
  · rw [hval env hlist]
    split_ifs <;> simp

/-- Witness of `NewRules_list_precedence`: three replicas of `[+zone=sh]`, in
the sample environment and in the one with the other visiting order. -/
theorem NewRules_list_precedence_witness :
    NewRules sampleEnv Voter 3 "[+zone=sh]" = ([NewRule Voter 3 ["+zone=sh"]], none) ∧
    NewRules sampleEnvReversed Voter 3 "[+zone=sh]" = NewRules sampleEnv Voter 3 "[+zone=sh]" :=
  ⟨(NewRules_list_precedence sampleEnv Voter 3 "[+zone=sh]" ["+zone=sh"] (by decide)).1,
    (NewRules_list_precedence sampleEnv Voter 3 "[+zone=sh]" ["+zone=sh"] (by decide)).2.2.2
      sampleEnvReversed (by decide)⟩

/-- C12: when the strict decode yields a map whose counts are all positive and
the key resolver and `NewConstraints` succeed on every key,
`NewRulesWithDictConstraints` returns no error and one rule per entry of the
map, in the order in which the construction loop visits the entries; the rule
of an entry has the count of the entry, the role that the resolver returns for
its key and the constraints that `NewConstraints` returns for its labels.
Hence the number of rules is the number of entries and the sum of the counts
of the rules is the sum of the values of the map. -/
theorem NewRulesWithDictConstraints_one_rule_per_entry {C : Type} (env : Env C)
    (hwf : env.WF) (role : PeerRoleType) (cnstr : String) (m : GoMap)
    (hdict : env.yamlUnmarshalStrict cnstr = .ok m)
    (hpos : ∀ e ∈ m, 0 < e.2)
    (hkeys : ∀ e ∈ m, ∃ lbs r c, env.preCheckDictConstraintStr e.1 role = .ok (lbs, r) ∧
      env.NewConstraints lbs = .ok c) :
    ∃ rules, NewRulesWithDictConstraints env role cnstr = (rules, none) ∧
      List.Forall₂
        (fun e rule => ∃ lbs r c, env.preCheckDictConstraintStr e.1 role = .ok (lbs, r) ∧
          env.NewConstraints lbs = .ok c ∧ rule.Count = e.2 ∧ rule.Role = r ∧
          rule.Constraints = c)
        (env.range₂ m) rules ∧
      rules.length = m.length ∧
      countSum rules = (m.map Prod.snd).sum := by
  have hmem₂ : ∀ e, e ∈ env.range₂ m ↔ e ∈ m := fun e => (hwf.range₂_perm m).mem_iff
  have hcheck : checkCounts cnstr (env.range₁ m) = none :=
    checkCounts_of_pos cnstr _ fun e he => hpos e ((hwf.range₁_perm m).mem_iff.1 he)
  have hall : ∀ e ∈ env.range₂ m, e.2 ≠ 0 ∧ ∃ r, entryRule env role e = .ok r := by
    intro e he
    obtain ⟨lbs, r, c, hp, hn⟩ := hkeys e ((hmem₂ e).1 he)
    exact ⟨ne_of_gt (hpos e ((hmem₂ e).1 he)), _, entryRule_of_keys hp hn⟩
  have hforall := forall₂_filterMap_entryRule env role (env.range₂ m)
    (fun e he => ⟨hpos e ((hmem₂ e).1 he), (hwf.values_int cnstr m hdict e ((hmem₂ e).1 he)).2⟩)
    (fun e he => hkeys e ((hmem₂ e).1 he))
  refine ⟨(env.range₂ m).filterMap fun e => (entryRule env role e).toOption, ?_, hforall, ?_, ?_⟩
  · simp only [NewRulesWithDictConstraints, hdict, hcheck]
    exact (buildRules_ok_iff env role (env.range₂ m) [] _).2 ⟨hall, by simp⟩
  · rw [← hforall.length_eq]
    exact (hwf.range₂_perm m).length_eq
  · rw [countSum_of_forall₂ (fun e rule h => by obtain ⟨_, _, _, _, _, h, _⟩ := h; exact h)
      hforall]
    exact ((hwf.range₂_perm m).map Prod.snd).sum_eq

/-- Witness of `NewRulesWithDictConstraints_one_rule_per_entry`: the text
`{+zone=sh: 2, +zone=bj: 1}`. -/
theorem NewRulesWithDictConstraints_one_rule_per_entry_witness :
    ∃ rules, NewRulesWithDictConstraints sampleEnv Voter "\x7b+zone=sh: 2, +zone=bj: 1\x7d"
        = (rules, none) ∧
      List.Forall₂
        (fun e rule => ∃ lbs r c, sampleEnv.preCheckDictConstraintStr e.1 Voter = .ok (lbs, r) ∧
          sampleEnv.NewConstraints lbs = .ok c ∧ rule.Count = e.2 ∧ rule.Role = r ∧
          rule.Constraints = c)
        (sampleEnv.range₂ [("+zone=sh", 2), ("+zone=bj", 1)]) rules ∧
      rules.length = [("+zone=sh", (2 : Int)), ("+zone=bj", (1 : Int))].length ∧
      countSum rules = ([("+zone=sh", (2 : Int)), ("+zone=bj", (1 : Int))].map Prod.snd).sum :=
  NewRulesWithDictConstraints_one_rule_per_entry sampleEnv sampleEnv_WF Voter
    "\x7b+zone=sh: 2, +zone=bj: 1\x7d" [("+zone=sh", 2), ("+zone=bj", 1)] (by decide)
    (by decide)
    (by
      intro e he
      simp only [List.mem_cons, List.mem_singleton, List.not_mem_nil, or_false] at he
      rcases he with rfl | rfl
      · exact ⟨["+zone=sh"], Voter, ["+zone=sh"], by decide, by decide⟩
      · exact ⟨["+zone=bj"], Voter, ["+zone=bj"], by decide, by decide⟩)

/-! ## Reconciliation of the replica count -/

theorem wrapInt_congr {a b : Int} (h : a % 2 ^ 64 = b % 2 ^ 64) : wrapInt a = wrapInt b := by
  unfold wrapInt uint64OfInt
  rw [h]

theorem wrapInt_of_range {i : Int} (h0 : -(2 : Int) ^ 63 ≤ i) (h1 : i < 2 ^ 63) :
    wrapInt i = i := by
  unfold wrapInt intOfUint64 uint64OfInt
  split <;> omega

theorem foldl_wrapInt {C : Type} (rules : List (Rule C)) (acc : Int) :
    rules.foldl (fun acc rule => wrapInt (acc + rule.Count)) (wrapInt acc)
      = wrapInt (acc + countSum rules) := by
  induction rules generalizing acc with
  | nil => simp [countSum]
  | cons r rs ih =>
      simp only [List.foldl_cons, countSum, List.map_cons, List.sum_cons] at ih ⊢
      rw [ih]
      apply wrapInt_congr
      have h := wrapInt_emod acc
      omega

theorem totalCnt_eq_wrapInt {C : Type} (rules : List (Rule C)) :
    totalCnt rules = wrapInt (countSum rules) := by
  have h0 : wrapInt 0 = 0 := by decide
  have h := foldl_wrapInt rules 0
  rw [h0, zero_add] at h
  exact h

/-- C13 as stated fails: the three counts of the text are `2^63 - 1`, so the
rules of `NewRulesWithDictConstraints` have the total count `3 * 2^63 - 3`, and
`NewRules` succeeds for the declared count `2^63 - 3`, which is not the total. -/
theorem NewRules_dict_total_wraps :
    sampleEnvBig.NewConstraintsFromYaml
      ("\x7b+zone=a: 9223372036854775807, +zone=b: 9223372036854775807, "
        ++ "+zone=c: 9223372036854775807\x7d") = .error "yaml: unmarshal errors" ∧
    NewRulesWithDictConstraints sampleEnvBig Voter
      ("\x7b+zone=a: 9223372036854775807, +zone=b: 9223372036854775807, "
        ++ "+zone=c: 9223372036854775807\x7d")
      = ([NewRule Voter 9223372036854775807 ["+zone=a"],
          NewRule Voter 9223372036854775807 ["+zone=b"],
          NewRule Voter 9223372036854775807 ["+zone=c"]], none) ∧
    countSum [NewRule Voter 9223372036854775807 ["+zone=a"],
        NewRule Voter 9223372036854775807 ["+zone=b"],
        NewRule Voter 9223372036854775807 ["+zone=c"]] = 27670116110564327421 ∧
    NewRules sampleEnvBig Voter 9223372036854775805
      ("\x7b+zone=a: 9223372036854775807, +zone=b: 9223372036854775807, "
        ++ "+zone=c: 9223372036854775807\x7d")
      = ([NewRule Voter 9223372036854775807 ["+zone=a"],
          NewRule Voter 9223372036854775807 ["+zone=b"],
          NewRule Voter 9223372036854775807 ["+zone=c"]], none) ∧
    ((9223372036854775805 : Nat) : Int) ≠ 27670116110564327421 := by
  decide

/-- C13 (amended): on the dictionary path, with the rules of
`NewRulesWithDictConstraints` and their total count `T`, `NewRules` always
returns those rules unchanged.  With the declared count 0 it succeeds for
every `T`.  With a declared count `D ≠ 0` it succeeds exactly when `D` is `T`
reduced modulo `2^64`, which is `D = T` whenever `0 ≤ T < 2^64`; otherwise it
fails with an error that wraps `ErrInvalidConstraintsReplicas` and whose text
names `D` and the `int` value of the total, which is `T` itself whenever
`T < 2^63`. -/
theorem NewRules_dict_replicas {C : Type} (env : Env C) (role : PeerRoleType) (D : Nat)
    (cnstr err1 : String) (m : GoMap) (rules : List (Rule C))
    (hlist : env.NewConstraintsFromYaml cnstr = .error err1)
    (hdict : env.yamlUnmarshalStrict cnstr = .ok m)
    (hbuild : NewRulesWithDictConstraints env role cnstr = (rules, none)) :
    NewRules env role 0 cnstr = (rules, none) ∧
    (D ≠ 0 →
      (NewRules env role D cnstr = (rules, none) ↔ (D : Int) = countSum rules % 2 ^ 64) ∧
      ((D : Int) ≠ countSum rules % 2 ^ 64 →
        ∃ tail, NewRules env role D cnstr
            = (rules, some (.errorf .ErrInvalidConstraintsReplicas tail)) ∧
          Contains tail (toString (wrapInt (countSum rules))) ∧
          Contains tail (toString D))) ∧
    (0 ≤ countSum rules → countSum rules < 2 ^ 64 →
      ((D : Int) = countSum rules % 2 ^ 64 ↔ (D : Int) = countSum rules)) ∧
    (0 ≤ countSum rules → countSum rules < 2 ^ 63 →
      wrapInt (countSum rules) = countSum rules) := by
  have hu : uint64OfInt (totalCnt rules) = (countSum rules % 2 ^ 64).toNat := by
    rw [uint64OfInt_totalCnt]; rfl
  have hnn : 0 ≤ countSum rules % 2 ^ 64 := Int.emod_nonneg _ (by norm_num)
  have key : (D : Int) = countSum rules % 2 ^ 64 ↔ D = uint64OfInt (totalCnt rules) := by
    rw [hu]; omega
  refine ⟨?_, ?_, ?_, ?_⟩
  · simp only [NewRules, hlist, hdict, hbuild]
    rw [if_neg]
    exact fun hc => hc.1 rfl
  · intro hD0
    constructor
    · constructor
      · intro h
        by_contra hne
        have h' : D ≠ uint64OfInt (totalCnt rules) := fun hc => hne (key.2 hc)
        simp only [NewRules, hlist, hdict, hbuild] at h
        rw [if_pos ⟨hD0, h'⟩] at h
        simp at h
      · intro h
        simp only [NewRules, hlist, hdict, hbuild]
        rw [if_neg]
        exact fun hc => hc.2 (key.1 h)
    · intro hne
      have h' : D ≠ uint64OfInt (totalCnt rules) := fun hc => hne (key.2 hc)
      refine ⟨": count of replicas in dict constrains is " ++ toString (totalCnt rules)
            ++ ", but got " ++ toString D, ?_, ?_, ?_⟩
      · simp only [NewRules, hlist, hdict, hbuild]
        rw [if_pos ⟨hD0, h'⟩]
      · rw [← totalCnt_eq_wrapInt]
        exact ⟨": count of replicas in dict constrains is ", ", but got " ++ toString D,
          by simp only [String.append_assoc]⟩
      · exact ⟨": count of replicas in dict constrains is " ++ toString (totalCnt rules)
            ++ ", but got ", "", by simp⟩
  · intro h0 h1
    rw [Int.emod_eq_of_lt h0 h1]
  · intro h0 h1
    exact wrapInt_of_range (by omega) h1

/-- Witness of `NewRules_dict_replicas`: the text `{+zone=sh: 2, +zone=bj: 1}`,
whose total count is 3, with four declared replicas. -/
theorem NewRules_dict_replicas_witness :
    ∃ tail, NewRules sampleEnv Voter 4 "\x7b+zone=sh: 2, +zone=bj: 1\x7d"
        = ([NewRule Voter 2 ["+zone=sh"], NewRule Voter 1 ["+zone=bj"]],
            some (.errorf .ErrInvalidConstraintsReplicas tail)) ∧
      Contains tail (toString (wrapInt
        (countSum [NewRule Voter 2 ["+zone=sh"], NewRule Voter 1 ["+zone=bj"]]))) ∧
      Contains tail (toString 4) :=
  ((NewRules_dict_replicas sampleEnv Voter 4 "\x7b+zone=sh: 2, +zone=bj: 1\x7d"
    "yaml: unmarshal errors" [("+zone=sh", 2), ("+zone=bj", 1)]
    [NewRule Voter 2 ["+zone=sh"], NewRule Voter 1 ["+zone=bj"]]
    (by decide) (by decide) (by decide)).2.1 (by decide)).2 (by decide)

/-! ## The visiting order of the dictionary -/

theorem sampleEnvReversed_WF : sampleEnvReversed.WF :=
  ⟨sampleEnv_WF.keys_nodup, sampleEnv_WF.values_int, fun m => List.reverse_perm m,
    fun m => List.reverse_perm m⟩

theorem countSum_perm {C : Type} {rules rules' : List (Rule C)} (h : rules'.Perm rules) :
    countSum rules' = countSum rules := by
  unfold countSum
  exact (h.map fun r : Rule C => r.Count).sum_eq

theorem NewRulesWithDictConstraints_perm {C : Type} (env₁ env₂ : Env C) (hw₁ : env₁.WF)
    (hw₂ : env₂.WF) (hy : env₂.yamlUnmarshalStrict = env₁.yamlUnmarshalStrict)
    (hp : env₂.preCheckDictConstraintStr = env₁.preCheckDictConstraintStr)
    (hn : env₂.NewConstraints = env₁.NewConstraints)
    (role : PeerRoleType) (cnstr : String) (rules : List (Rule C))
    (h : NewRulesWithDictConstraints env₁ role cnstr = (rules, none)) :
    ∃ rules', NewRulesWithDictConstraints env₂ role cnstr = (rules', none) ∧
      rules'.Perm rules := by
  have hentry : entryRule env₂ role = entryRule env₁ role := by
    funext e
    simp only [entryRule, hp, hn]
  unfold NewRulesWithDictConstraints at h ⊢
  rw [hy]
  cases hd : env₁.yamlUnmarshalStrict cnstr with
  | error err2 => simp [hd] at h
  | ok m =>
      simp only [hd] at h ⊢
      cases hc : checkCounts cnstr (env₁.range₁ m) with
      | some err => simp [hc] at h
      | none =>
          simp only [hc] at h
          have hpos : ∀ e ∈ m, 0 < e.2 := fun e he =>
            checkCounts_none hc e ((hw₁.range₁_perm m).mem_iff.2 he)
          have hc₂ : checkCounts cnstr (env₂.range₁ m) = none :=
            checkCounts_of_pos cnstr _ fun e he => hpos e ((hw₂.range₁_perm m).mem_iff.1 he)
          obtain ⟨hall, hrules⟩ := (buildRules_ok_iff env₁ role _ [] rules).1 h
          have hperm : (env₂.range₂ m).Perm (env₁.range₂ m) :=
            (hw₂.range₂_perm m).trans (hw₁.range₂_perm m).symm
          refine ⟨(env₂.range₂ m).filterMap fun e => (entryRule env₂ role e).toOption, ?_, ?_⟩
          · simp only [hc₂]
            refine (buildRules_ok_iff env₂ role _ [] _).2 ⟨?_, by simp⟩
            intro e he
            rw [hentry]
            exact hall e (hperm.mem_iff.1 he)
          · rw [hrules, hentry, List.nil_append]
            exact hperm.filterMap _

theorem sampleEnvInvalid_WF : sampleEnvInvalid.WF := by
  refine ⟨?_, ?_, fun m => List.Perm.refl m, fun m => List.Perm.refl m⟩
  · intro s m h
    simp only [sampleEnvInvalid, sampleYamlUnmarshalStrictInvalid] at h
    split_ifs at h <;> (cases h; decide)
  · intro s m h
    simp only [sampleEnvInvalid, sampleYamlUnmarshalStrictInvalid] at h
    split_ifs at h <;> (cases h; decide)

theorem sampleEnvInvalidReversed_WF : sampleEnvInvalidReversed.WF :=
  ⟨sampleEnvInvalid_WF.keys_nodup, sampleEnvInvalid_WF.values_int,
    fun m => List.reverse_perm m, fun m => List.reverse_perm m⟩

theorem NewRulesWithDictConstraints_of_nonpos {C : Type} (env : Env C) (hwf : env.WF)
    (role : PeerRoleType) (cnstr : String) (m : GoMap)
    (hd : env.yamlUnmarshalStrict cnstr = .ok m) (hbad : ∃ e ∈ m, e.2 ≤ 0) :
    ∃ err, NewRulesWithDictConstraints env role cnstr = ([], some err) ∧
      (getYamlMapFormatError cnstr = some err ∨
       (getYamlMapFormatError cnstr = none ∧ ∃ labels cnt, (labels, cnt) ∈ m ∧ cnt ≤ 0 ∧
          err = .errorf .ErrInvalidConstraintsMapcnt
            (": count of labels '" ++ labels ++ "' should be positive, but got "
              ++ toString cnt))) := by
  have hbad' : ∃ e ∈ env.range₁ m, e.2 ≤ 0 := by
    obtain ⟨e, he, hle⟩ := hbad
    exact ⟨e, (hwf.range₁_perm m).mem_iff.2 he, hle⟩
  obtain ⟨err, hc, hkind⟩ := checkCounts_nonpos cnstr hbad'
  refine ⟨err, by simp only [NewRulesWithDictConstraints, hd, hc], ?_⟩
  rcases hkind with h | ⟨h, labels, cnt, hm, hle, herr⟩
  · exact Or.inl h
  · exact Or.inr ⟨h, labels, cnt, (hwf.range₁_perm m).mem_iff.1 hm, hle, herr⟩

theorem NewRulesWithDictConstraints_failing_entry {C : Type} (env : Env C) (hwf : env.WF)
    (role : PeerRoleType) (cnstr : String) (m : GoMap)
    (hd : env.yamlUnmarshalStrict cnstr = .ok m) (hpos : ∀ e ∈ m, 0 < e.2)
    (rules : List (Rule C)) (err : GoError)
    (h : NewRulesWithDictConstraints env role cnstr = (rules, some err)) :
    ∃ e ∈ m, entryRule env role e = .error err := by
  have hc : checkCounts cnstr (env.range₁ m) = none :=
    checkCounts_of_pos cnstr _ fun e he => hpos e ((hwf.range₁_perm m).mem_iff.1 he)
  simp only [NewRulesWithDictConstraints, hd, hc] at h
  obtain ⟨done, failing, rest, hsplit, -, hfail⟩ :=
    buildRules_error_split env role _ [] rules err
      (fun e he => ne_of_gt (hpos e ((hwf.range₂_perm m).mem_iff.1 he))) h
  have hmem : failing ∈ env.range₂ m := by rw [hsplit]; simp
  refine ⟨failing, (hwf.range₂_perm m).mem_iff.1 hmem, ?_⟩
  rcases hfail with hp | ⟨lbs, r, hp, hn⟩
  · simp only [entryRule, hp]
  · simp only [entryRule, hp, hn]

theorem NewRulesWithDictConstraints_fails_of_entry {C : Type} (env : Env C) (hwf : env.WF)
    (role : PeerRoleType) (cnstr : String) (m : GoMap)
    (hd : env.yamlUnmarshalStrict cnstr = .ok m) (hpos : ∀ e ∈ m, 0 < e.2)
    (e : String × Int) (he : e ∈ m) (x : GoError) (hx : entryRule env role e = .error x) :
    ∃ rules err, NewRulesWithDictConstraints env role cnstr = (rules, some err) := by
  have hc : checkCounts cnstr (env.range₁ m) = none :=
    checkCounts_of_pos cnstr _ fun e he => hpos e ((hwf.range₁_perm m).mem_iff.1 he)
  cases hres : NewRulesWithDictConstraints env role cnstr with
  | mk rules oerr =>
      cases oerr with
      | some err => exact ⟨rules, err, rfl⟩
      | none =>
          exfalso
          simp only [NewRulesWithDictConstraints, hd, hc] at hres
          obtain ⟨hall, -⟩ := (buildRules_ok_iff env role _ [] rules).1 hres
          obtain ⟨-, r, hr⟩ := hall e ((hwf.range₂_perm m).mem_iff.2 he)
          rw [hx] at hr
          cases hr

/-- C14 as stated fails, in four ways.  The run that visits the entries as
written and the run that visits them in the other order return: for the text
`{+zone=sh: 2, +zone=bj: 1}` the two rules in different orders; for the text
`{+zone=sh: 0, +zone=bj: -1}` two `ErrInvalidConstraintsMapcnt` errors that name
different entries; for the text `{zone: 1, rack: 1}` the errors of
`NewConstraints` for different keys; and for the text `{+zone=sh: 1, zone: 1}`
the same error with different rule lists. -/
theorem NewRules_order_depends_on_range :
    NewRulesWithDictConstraints sampleEnv Voter "\x7b+zone=sh: 2, +zone=bj: 1\x7d"
      = ([NewRule Voter 2 ["+zone=sh"], NewRule Voter 1 ["+zone=bj"]], none) ∧
    NewRulesWithDictConstraints sampleEnvReversed Voter "\x7b+zone=sh: 2, +zone=bj: 1\x7d"
      = ([NewRule Voter 1 ["+zone=bj"], NewRule Voter 2 ["+zone=sh"]], none) ∧
    NewRules sampleEnv Voter 3 "\x7b+zone=sh: 2, +zone=bj: 1\x7d"
      ≠ NewRules sampleEnvReversed Voter 3 "\x7b+zone=sh: 2, +zone=bj: 1\x7d" ∧
    NewRulesWithDictConstraints sampleEnvInvalid Voter "\x7b+zone=sh: 0, +zone=bj: -1\x7d"
      = ([], some (.errorf .ErrInvalidConstraintsMapcnt
          ": count of labels '+zone=sh' should be positive, but got 0")) ∧
    NewRulesWithDictConstraints sampleEnvInvalidReversed Voter
        "\x7b+zone=sh: 0, +zone=bj: -1\x7d"
      = ([], some (.errorf .ErrInvalidConstraintsMapcnt
          ": count of labels '+zone=bj' should be positive, but got -1")) ∧
    NewRulesWithDictConstraints sampleEnvInvalid Voter "\x7bzone: 1, rack: 1\x7d"
      = ([], some (.foreign "label constraint should be in format '\x7b+|-\x7dkey=value': zone")) ∧
    NewRulesWithDictConstraints sampleEnvInvalidReversed Voter "\x7bzone: 1, rack: 1\x7d"
      = ([], some (.foreign "label constraint should be in format '\x7b+|-\x7dkey=value': rack")) ∧
    NewRulesWithDictConstraints sampleEnv Voter "\x7b+zone=sh: 1, zone: 1\x7d"
      = ([NewRule Voter 1 ["+zone=sh"]],
          some (.foreign "label constraint should be in format '\x7b+|-\x7dkey=value': zone")) ∧
    NewRulesWithDictConstraints sampleEnvReversed Voter "\x7b+zone=sh: 1, zone: 1\x7d"
      = ([], some (.foreign "label constraint should be in format '\x7b+|-\x7dkey=value': zone")) :=
  ⟨by decide, by decide, by decide, by decide, by decide, by decide, by decide, by decide,
    by decide⟩

/-- C14 (amended): two runs that differ only in the order in which the `range`
loops visit the decoded dictionary return the same result when the list parser
accepts the text and when the strict decode fails.  On the dictionary path,
`NewRulesWithDictConstraints` succeeds in one run exactly when it succeeds in
the other, and then the two rule lists hold the same rules, possibly in a
different order, and `NewRules` returns the same error or no error in both
runs.  When some count of the dictionary is not positive, both runs return no
rules; both return the error of `getYamlMapFormatError` when there is one, and
otherwise each returns `ErrInvalidConstraintsMapcnt` for an entry whose count
is not positive, the same error in both runs when only one entry has such a
count.  When all counts are positive and the first run fails, its error is the
error of an entry that the key resolver or `NewConstraints` refuses, the second
run fails too with the error of such an entry, and the two errors are equal
when only one entry is refused.  After a successful strict decode, `NewRules` hands
back the rules and the error of a failed `NewRulesWithDictConstraints`
unchanged. -/
theorem NewRules_up_to_range {C : Type} (env₁ env₂ : Env C) (hw₁ : env₁.WF) (hw₂ : env₂.WF)
    (hl : env₂.NewConstraintsFromYaml = env₁.NewConstraintsFromYaml)
    (hy : env₂.yamlUnmarshalStrict = env₁.yamlUnmarshalStrict)
    (hp : env₂.preCheckDictConstraintStr = env₁.preCheckDictConstraintStr)
    (hn : env₂.NewConstraints = env₁.NewConstraints)
    (role : PeerRoleType) (replicas : Nat) (cnstr : String) :
    (∀ c, env₁.NewConstraintsFromYaml cnstr = .ok c →
      NewRules env₂ role replicas cnstr = NewRules env₁ role replicas cnstr) ∧
    (∀ err2, env₁.yamlUnmarshalStrict cnstr = .error err2 →
      NewRulesWithDictConstraints env₂ role cnstr = NewRulesWithDictConstraints env₁ role cnstr ∧
      NewRules env₂ role replicas cnstr = NewRules env₁ role replicas cnstr) ∧
    ((NewRulesWithDictConstraints env₁ role cnstr).2 = none ↔
      (NewRulesWithDictConstraints env₂ role cnstr).2 = none) ∧
    (∀ rules₁, NewRulesWithDictConstraints env₁ role cnstr = (rules₁, none) →
      ∃ rules₂, NewRulesWithDictConstraints env₂ role cnstr = (rules₂, none) ∧
        rules₂.Perm rules₁ ∧
        (∀ err1, env₁.NewConstraintsFromYaml cnstr = .error err1 →
          (NewRules env₁ role replicas cnstr).1 = rules₁ ∧
          (NewRules env₂ role replicas cnstr).1 = rules₂ ∧
          (NewRules env₂ role replicas cnstr).2 = (NewRules env₁ role replicas cnstr).2)) ∧
    (∀ m, env₁.yamlUnmarshalStrict cnstr = .ok m → (∃ e ∈ m, e.2 ≤ 0) →
      ∃ e₁ e₂, NewRulesWithDictConstraints env₁ role cnstr = ([], some e₁) ∧
        NewRulesWithDictConstraints env₂ role cnstr = ([], some e₂) ∧
        (∀ e, getYamlMapFormatError cnstr = some e → e₁ = e ∧ e₂ = e) ∧
        (getYamlMapFormatError cnstr = none →
          (∃ labels cnt, (labels, cnt) ∈ m ∧ cnt ≤ 0 ∧
            e₁ = .errorf .ErrInvalidConstraintsMapcnt
              (": count of labels '" ++ labels ++ "' should be positive, but got "
                ++ toString cnt)) ∧
          (∃ labels cnt, (labels, cnt) ∈ m ∧ cnt ≤ 0 ∧
            e₂ = .errorf .ErrInvalidConstraintsMapcnt
              (": count of labels '" ++ labels ++ "' should be positive, but got "
                ++ toString cnt))) ∧
        ((∀ a ∈ m, ∀ b ∈ m, a.2 ≤ 0 → b.2 ≤ 0 → a = b) → e₂ = e₁)) ∧
    (∀ m, env₁.yamlUnmarshalStrict cnstr = .ok m → (∀ e ∈ m, 0 < e.2) →
      ∀ rules₁ err₁, NewRulesWithDictConstraints env₁ role cnstr = (rules₁, some err₁) →
        (∃ e ∈ m, entryRule env₁ role e = .error err₁) ∧
        ∃ rules₂ err₂, NewRulesWithDictConstraints env₂ role cnstr = (rules₂, some err₂) ∧
          (∃ e ∈ m, entryRule env₁ role e = .error err₂) ∧
          ((∀ a ∈ m, ∀ b ∈ m, (∃ x, entryRule env₁ role a = .error x) →
              (∃ y, entryRule env₁ role b = .error y) → a = b) → err₂ = err₁)) ∧
    (∀ m err1 rules err, env₁.yamlUnmarshalStrict cnstr = .ok m →
      env₁.NewConstraintsFromYaml cnstr = .error err1 →
      NewRulesWithDictConstraints env₁ role cnstr = (rules, some err) →
      NewRules env₁ role replicas cnstr = (rules, some err)) := by
  have hentry : entryRule env₂ role = entryRule env₁ role := by
    funext e
    simp only [entryRule, hp, hn]
  refine ⟨?_, ?_, ?_, ?_, ?_, ?_, ?_⟩
  · intro c hc
    simp only [NewRules, hl, hc]
  · intro err2 hd
    constructor
    · simp only [NewRulesWithDictConstraints, hy, hd]
    · simp only [NewRules, hl, hy, hd]
  · constructor
    · intro h
      obtain ⟨rules₂, h₂, -⟩ := NewRulesWithDictConstraints_perm env₁ env₂ hw₁ hw₂ hy hp hn role
        cnstr (NewRulesWithDictConstraints env₁ role cnstr).1 (Prod.ext rfl h)
      rw [h₂]
    · intro h
      obtain ⟨rules₁, h₁, -⟩ := NewRulesWithDictConstraints_perm env₂ env₁ hw₂ hw₁ hy.symm
        hp.symm hn.symm role cnstr (NewRulesWithDictConstraints env₂ role cnstr).1
        (Prod.ext rfl h)
      rw [h₁]
  · intro rules₁ h₁
    obtain ⟨rules₂, h₂, hperm⟩ :=
      NewRulesWithDictConstraints_perm env₁ env₂ hw₁ hw₂ hy hp hn role cnstr rules₁ h₁
    refine ⟨rules₂, h₂, hperm, ?_⟩
    intro err1 hlist
    have hdict : ∃ m, env₁.yamlUnmarshalStrict cnstr = .ok m := by
      cases hd : env₁.yamlUnmarshalStrict cnstr with
      | ok m => exact ⟨m, rfl⟩
      | error err2 => simp [NewRulesWithDictConstraints, hd] at h₁
    obtain ⟨m, hd⟩ := hdict
    have htotal : totalCnt rules₂ = totalCnt rules₁ := by
      rw [totalCnt_eq_wrapInt, totalCnt_eq_wrapInt, countSum_perm hperm]
    simp only [NewRules, hl, hy, hlist, hd, h₁, h₂, htotal]
    split_ifs <;> simp
  · intro m hd hbad
    have hd₂ : env₂.yamlUnmarshalStrict cnstr = .ok m := by rw [hy]; exact hd
    obtain ⟨e₁, h₁, hk₁⟩ := NewRulesWithDictConstraints_of_nonpos env₁ hw₁ role cnstr m hd hbad
    obtain ⟨e₂, h₂, hk₂⟩ := NewRulesWithDictConstraints_of_nonpos env₂ hw₂ role cnstr m hd₂ hbad
    refine ⟨e₁, e₂, h₁, h₂, ?_, ?_, ?_⟩
    · intro e hg
      constructor
      · rcases hk₁ with h | ⟨h, -⟩
        · rw [hg] at h; exact (Option.some.inj h).symm
        · rw [hg] at h; cases h
      · rcases hk₂ with h | ⟨h, -⟩
        · rw [hg] at h; exact (Option.some.inj h).symm
        · rw [hg] at h; cases h
    · intro hg
      constructor
      · rcases hk₁ with h | ⟨-, h⟩
        · rw [hg] at h; cases h
        · exact h
      · rcases hk₂ with h | ⟨-, h⟩
        · rw [hg] at h; cases h
        · exact h
    · intro huniq
      rcases hk₁ with h₁g | ⟨h₁g, l₁, c₁, hm₁, hc₁, he₁⟩
      · rcases hk₂ with h₂g | ⟨h₂g, -⟩
        · rw [h₁g] at h₂g; exact (Option.some.inj h₂g).symm
        · rw [h₁g] at h₂g; cases h₂g
      · rcases hk₂ with h₂g | ⟨-, l₂, c₂, hm₂, hc₂, he₂⟩
        · rw [h₁g] at h₂g; cases h₂g
        · have := huniq _ hm₁ _ hm₂ hc₁ hc₂
          cases this
          rw [he₁, he₂]
  · intro m hd hpos rules₁ err₁ h₁
    have hd₂ : env₂.yamlUnmarshalStrict cnstr = .ok m := by rw [hy]; exact hd
    obtain ⟨a, ha, hae⟩ :=
      NewRulesWithDictConstraints_failing_entry env₁ hw₁ role cnstr m hd hpos rules₁ err₁ h₁
    refine ⟨⟨a, ha, hae⟩, ?_⟩
    obtain ⟨rules₂, err₂, h₂⟩ :=
      NewRulesWithDictConstraints_fails_of_entry env₂ hw₂ role cnstr m hd₂ hpos a ha err₁
        (by rw [hentry]; exact hae)
    obtain ⟨b, hb, hbe⟩ :=
      NewRulesWithDictConstraints_failing_entry env₂ hw₂ role cnstr m hd₂ hpos rules₂ err₂ h₂
    rw [hentry] at hbe
    refine ⟨rules₂, err₂, h₂, ⟨b, hb, hbe⟩, ?_⟩
    intro huniq
    have hab := huniq a ha b hb ⟨_, hae⟩ ⟨_, hbe⟩
    subst hab
    rw [hae] at hbe
    cases hbe
    rfl
  · intro m err1 rules err hd hlist h
    simp only [NewRules, hlist, hd, h]

/-- Witness of `NewRules_up_to_range`: the text `{+zone=sh: 1, zone: 1}`, whose
only refused key is `zone`, in the sample environment and in the one with the
other visiting order: both runs fail with the error for that key. -/
theorem NewRules_up_to_range_witness :
    NewRulesWithDictConstraints sampleEnv Voter "\x7b+zone=sh: 1, zone: 1\x7d"
      = ([NewRule Voter 1 ["+zone=sh"]],
          some (.foreign "label constraint should be in format '\x7b+|-\x7dkey=value': zone")) ∧
    ∃ rules₂, NewRulesWithDictConstraints sampleEnvReversed Voter
        "\x7b+zone=sh: 1, zone: 1\x7d"
      = (rules₂,
          some (.foreign "label constraint should be in format '\x7b+|-\x7dkey=value': zone")) := by
  obtain ⟨-, rules₂, err₂, h₂, -, huniq⟩ :=
    (NewRules_up_to_range sampleEnv sampleEnvReversed sampleEnv_WF sampleEnvReversed_WF rfl rfl
      rfl rfl Voter 3 "\x7b+zone=sh: 1, zone: 1\x7d").2.2.2.2.2.1
      [("+zone=sh", 1), ("zone", 1)] (by decide) (by decide)
      [NewRule Voter 1 ["+zone=sh"]]
      (.foreign "label constraint should be in format '\x7b+|-\x7dkey=value': zone") (by decide)
  have hok : entryRule sampleEnv Voter ("+zone=sh", 1) = .ok (NewRule Voter 1 ["+zone=sh"]) := by
    decide
  have herr : err₂
      = .foreign "label constraint should be in format '\x7b+|-\x7dkey=value': zone" := by
    apply huniq
    intro a ha b hb hx hy
    obtain ⟨x, hx⟩ := hx
    obtain ⟨y, hy⟩ := hy
    simp only [List.mem_cons, List.mem_singleton, List.not_mem_nil, or_false] at ha hb
    rcases ha with rfl | rfl
    · rw [hok] at hx
      cases hx
    · rcases hb with rfl | rfl
      · rw [hok] at hy
        cases hy
      · rfl
  subst herr
  exact ⟨by decide, rules₂, h₂⟩

/-! ## The counts of the compiled rules -/

theorem NewRulesWithDictConstraints_ok {C : Type} (env : Env C) (hwf : env.WF)
    (role : PeerRoleType) (cnstr : String) (rules : List (Rule C))
    (h : NewRulesWithDictConstraints env role cnstr = (rules, none)) :
    ∃ m, env.yamlUnmarshalStrict cnstr = .ok m ∧ (∀ e ∈ m, 0 < e.2) ∧
      (∀ e ∈ m, ∃ r, entryRule env role e = .ok r) ∧
      rules = (env.range₂ m).filterMap fun e => (entryRule env role e).toOption := by
  unfold NewRulesWithDictConstraints at h
  cases hd : env.yamlUnmarshalStrict cnstr with
  | error err2 => simp [hd] at h
  | ok m =>
      simp only [hd] at h
      cases hc : checkCounts cnstr (env.range₁ m) with
      | some err => simp [hc] at h
      | none =>
          simp only [hc] at h
          obtain ⟨hall, hrules⟩ := (buildRules_ok_iff env role _ [] rules).1 h
          refine ⟨m, rfl, ?_, ?_, by simpa using hrules⟩
          · exact fun e he => checkCounts_none hc e ((hwf.range₁_perm m).mem_iff.2 he)
          · exact fun e he => (hall e ((hwf.range₂_perm m).mem_iff.2 he)).2

theorem NewRulesWithDictConstraints_counts {C : Type} (env : Env C) (hwf : env.WF)
    (role : PeerRoleType) (cnstr : String) (rules : List (Rule C))
    (h : NewRulesWithDictConstraints env role cnstr = (rules, none)) :
    ∃ m, env.yamlUnmarshalStrict cnstr = .ok m ∧
      ∀ r ∈ rules, 0 < r.Count ∧ ∃ e ∈ m, r.Count = e.2 := by
  obtain ⟨m, hd, hpos, -, hrules⟩ := NewRulesWithDictConstraints_ok env hwf role cnstr rules h
  refine ⟨m, hd, ?_⟩
  intro r hr
  rw [hrules, List.mem_filterMap] at hr
  obtain ⟨e, he, hopt⟩ := hr
  have hem : e ∈ m := (hwf.range₂_perm m).mem_iff.1 he
  have hok : entryRule env role e = .ok r := by
    cases hre : entryRule env role e with
    | error err => simp [hre, Except.toOption] at hopt
    | ok r' =>
        simp only [hre, Except.toOption, Option.some.injEq] at hopt
        rw [hopt]
  obtain ⟨lbs, overrideRole, c, -, -, hr⟩ := entryRule_ok hok
  have hcount : r.Count = e.2 := by
    rw [hr]
    exact intOfUint64_uint64OfInt (le_of_lt (hpos e hem)) (hwf.values_int cnstr m hd e hem).2
  exact ⟨by rw [hcount]; exact hpos e hem, e, hem, hcount⟩

/-- C15 as stated fails: the list parser accepts `[+zone=sh]`, the declared
count `2^64 - 1` is a `uint64`, `NewRules` returns one rule and no error, and
the count of that rule is `-1`. -/
theorem NewRules_list_negative_count :
    NewRules sampleEnv Voter (2 ^ 64 - 1) "[+zone=sh]"
      = ([NewRule Voter (2 ^ 64 - 1) ["+zone=sh"]], none) ∧
    (NewRule Voter (2 ^ 64 - 1) ["+zone=sh"]).Count = -1 ∧
    ¬ (0 ≤ (NewRule Voter (2 ^ 64 - 1) ["+zone=sh"]).Count) := by
  decide

/-- C15 (amended): every rule that `NewRulesWithDictConstraints` returns without
error has a count `> 0`, the value of an entry of the dictionary.  Every rule
that `NewRules` returns without error for a declared count `N < 2^64` is either
the rule of the list path, whose count is `int(N)`: positive and equal to `N`
when `N < 2^63`, negative when `N ≥ 2^63`; or a rule of the dictionary path,
whose count is `> 0` and the value of an entry of the dictionary. -/
theorem NewRules_counts {C : Type} (env : Env C) (hwf : env.WF) (role : PeerRoleType)
    (N : Nat) (hN : N < 2 ^ 64) (cnstr : String) (rules : List (Rule C)) :
    (NewRulesWithDictConstraints env role cnstr = (rules, none) →
      ∃ m, env.yamlUnmarshalStrict cnstr = .ok m ∧
        ∀ r ∈ rules, 0 < r.Count ∧ ∃ e ∈ m, r.Count = e.2) ∧
    (NewRules env role N cnstr = (rules, none) →
      ∀ r ∈ rules,
        (∃ c, env.NewConstraintsFromYaml cnstr = .ok c ∧ r.Count = intOfUint64 N ∧
          (N < 2 ^ 63 → 0 < r.Count ∧ r.Count = (N : Int)) ∧
          (2 ^ 63 ≤ N → r.Count < 0)) ∨
        (∃ err1 m, env.NewConstraintsFromYaml cnstr = .error err1 ∧
          env.yamlUnmarshalStrict cnstr = .ok m ∧ 0 < r.Count ∧ ∃ e ∈ m, r.Count = e.2)) := by
  refine ⟨NewRulesWithDictConstraints_counts env hwf role cnstr rules, ?_⟩
  intro h r hr
  unfold NewRules at h
  cases hl : env.NewConstraintsFromYaml cnstr with
  | ok c =>
      left
      simp only [hl] at h
      by_cases h0 : N = 0
      · rw [if_pos h0] at h
        split_ifs at h
        · simp at h
        · simp only [Prod.mk.injEq, and_true] at h
          rw [← h] at hr
          simp at hr
      · rw [if_neg h0] at h
        simp only [List.nil_append, Prod.mk.injEq, and_true] at h
        rw [← h, List.mem_singleton] at hr
        subst hr
        refine ⟨c, rfl, rfl, ?_, ?_⟩
        · intro hlt
          have := intOfUint64_small hlt
          simp only [NewRule]
          omega
        · intro hge
          have := intOfUint64_large hge hN
          simp only [NewRule]
          omega
  | error err1 =>
      right
      simp only [hl] at h
      cases hd : env.yamlUnmarshalStrict cnstr with
      | error err2 => simp [hd] at h
      | ok m =>
          simp only [hd] at h
          cases hb : NewRulesWithDictConstraints env role cnstr with
          | mk rules' err =>
              cases err with
              | some e => simp [hb] at h
              | none =>
                  simp only [hb] at h
                  have hrules : rules' = rules := by
                    split_ifs at h
                    · simp at h
                    · exact (Prod.mk.inj h).1
                  subst hrules
                  obtain ⟨m', hd', hcounts⟩ :=
                    NewRulesWithDictConstraints_counts env hwf role cnstr rules' hb
                  rw [hd] at hd'
                  cases hd'
                  exact ⟨err1, m, rfl, rfl, hcounts r hr⟩

set_option maxRecDepth 4000 in
/-- Witness of `NewRules_counts`: the text `{+zone=sh: 2, +zone=bj: 1}` with
three declared replicas, and the first of its two rules. -/
theorem NewRules_counts_witness :
    (∃ c, sampleEnv.NewConstraintsFromYaml "\x7b+zone=sh: 2, +zone=bj: 1\x7d" = .ok c ∧
      (NewRule Voter 2 ["+zone=sh"]).Count = intOfUint64 3 ∧
      (3 < 2 ^ 63 → 0 < (NewRule Voter 2 ["+zone=sh"]).Count ∧
        (NewRule Voter 2 ["+zone=sh"]).Count = ((3 : Nat) : Int)) ∧
      (2 ^ 63 ≤ 3 → (NewRule Voter 2 ["+zone=sh"]).Count < 0)) ∨
    (∃ err1 m, sampleEnv.NewConstraintsFromYaml "\x7b+zone=sh: 2, +zone=bj: 1\x7d"
        = .error err1 ∧
      sampleEnv.yamlUnmarshalStrict "\x7b+zone=sh: 2, +zone=bj: 1\x7d" = .ok m ∧
      0 < (NewRule Voter 2 ["+zone=sh"]).Count ∧
      ∃ e ∈ m, (NewRule Voter 2 ["+zone=sh"]).Count = e.2) :=
  (NewRules_counts sampleEnv sampleEnv_WF Voter 3 (by decide)
    "\x7b+zone=sh: 2, +zone=bj: 1\x7d"
    [NewRule Voter 2 ["+zone=sh"], NewRule Voter 1 ["+zone=bj"]]).2 (by decide)
    (NewRule Voter 2 ["+zone=sh"]) (List.mem_cons_self _ _)

/-! ## The test `cnt == 0` of the construction loop -/

theorem buildRules_eq_withoutZeroTest {C : Type} (env : Env C) (role : PeerRoleType)
    (l : GoMap) (hl : ∀ e ∈ l, e.2 ≠ 0) :
    ∀ acc : List (Rule C),
      buildRules env role l acc = buildRulesWithoutZeroTest env role l acc := by
  induction l with
  | nil => intro acc; rfl
  | cons e rest ih =>
      intro acc
      obtain ⟨labels, cnt⟩ := e
      have hc : cnt ≠ 0 := hl (labels, cnt) (List.mem_cons_self _ _)
      unfold buildRules buildRulesWithoutZeroTest
      cases hp : env.preCheckDictConstraintStr labels role with
      | error err => rfl
      | ok v =>
          obtain ⟨lbs, overrideRole⟩ := v
          cases hn : env.NewConstraints lbs with
          | error err => simp only [hn]
          | ok labelConstraints =>
              simp only [hn, if_neg hc]
              exact ih (fun e he => hl e (List.mem_cons_of_mem _ he)) _

/-- C19: the branch `cnt == 0` of the construction loop of
`NewRulesWithDictConstraints` is unreachable.  Whenever the validation loop
lets the map through, every entry that the construction loop visits has a
count other than 0, so the loop behaves as the loop without the test; and an
error wrapping `ErrInvalidConstraintsReplicas` that `NewRulesWithDictConstraints`
returns is never built by it: it is the error that the key resolver or
`NewConstraints` returned for an entry of the map. -/
theorem NewRulesWithDictConstraints_zero_test_unreachable {C : Type} (env : Env C)
    (hwf : env.WF) (role : PeerRoleType) (cnstr : String) :
    (∀ m, env.yamlUnmarshalStrict cnstr = .ok m →
      checkCounts cnstr (env.range₁ m) = none →
      (∀ e ∈ env.range₂ m, 0 < e.2) ∧
      buildRules env role (env.range₂ m) []
        = buildRulesWithoutZeroTest env role (env.range₂ m) []) ∧
    (∀ rules err, NewRulesWithDictConstraints env role cnstr = (rules, some err) →
      err.Is .ErrInvalidConstraintsReplicas = true →
      ∃ m e, env.yamlUnmarshalStrict cnstr = .ok m ∧ e ∈ m ∧ 0 < e.2 ∧
        (env.preCheckDictConstraintStr e.1 role = .error err ∨
         ∃ lbs r, env.preCheckDictConstraintStr e.1 role = .ok (lbs, r) ∧
           env.NewConstraints lbs = .error err)) := by
  have hpos : ∀ m, checkCounts cnstr (env.range₁ m) = none → ∀ e ∈ env.range₂ m, 0 < e.2 :=
    fun m hc e he => checkCounts_none hc e
      ((hwf.range₁_perm m).mem_iff.2 ((hwf.range₂_perm m).mem_iff.1 he))
  constructor
  · intro m _ hc
    exact ⟨hpos m hc, buildRules_eq_withoutZeroTest env role _
      (fun e he => ne_of_gt (hpos m hc e he)) []⟩
  · intro rules err h hIs
    unfold NewRulesWithDictConstraints at h
    cases hd : env.yamlUnmarshalStrict cnstr with
    | error err2 =>
        simp only [hd, Prod.mk.injEq, Option.some.injEq] at h
        rw [← h.2] at hIs
        simp [GoError.Is] at hIs
    | ok m =>
        simp only [hd] at h
        cases hc : checkCounts cnstr (env.range₁ m) with
        | some err' =>
            exfalso
            simp only [hc, Prod.mk.injEq, Option.some.injEq] at h
            have hbad : ∃ e ∈ env.range₁ m, e.2 ≤ 0 := by
              by_contra hno
              have := checkCounts_of_pos cnstr (env.range₁ m) fun e he =>
                not_le.1 fun hle => hno ⟨e, he, hle⟩
              rw [this] at hc
              cases hc
            obtain ⟨err'', hc', hkind⟩ := checkCounts_nonpos cnstr hbad
            rw [hc] at hc'
            have heq : err'' = err := by
              rw [← h.2]; exact (Option.some.inj hc').symm
            subst heq
            rcases hkind with hg | ⟨-, labels, cnt, -, -, herr⟩
            · unfold getYamlMapFormatError at hg
              split_ifs at hg
              · rw [← Option.some.inj hg] at hIs
                simp [GoError.Is] at hIs
              · rw [← Option.some.inj hg] at hIs
                simp [GoError.Is] at hIs
            · rw [herr] at hIs
              simp [GoError.Is] at hIs
        | none =>
            simp only [hc] at h
            obtain ⟨done, failing, rest, hsplit, -, hfail⟩ :=
              buildRules_error_split env role _ [] rules err
                (fun e he => ne_of_gt (hpos m hc e he)) h
            have hmem : failing ∈ env.range₂ m := by
              rw [hsplit]; simp
            exact ⟨m, failing, rfl, (hwf.range₂_perm m).mem_iff.1 hmem, hpos m hc failing hmem,
              hfail⟩

/-- Witness of `NewRulesWithDictConstraints_zero_test_unreachable`: the map of
the text `{+zone=sh: 2, +zone=bj: 1}`. -/
theorem NewRulesWithDictConstraints_zero_test_unreachable_witness :
    (∀ e ∈ sampleEnv.range₂ [("+zone=sh", 2), ("+zone=bj", 1)], 0 < e.2) ∧
    buildRules sampleEnv Voter (sampleEnv.range₂ [("+zone=sh", 2), ("+zone=bj", 1)]) []
      = buildRulesWithoutZeroTest sampleEnv Voter
          (sampleEnv.range₂ [("+zone=sh", 2), ("+zone=bj", 1)]) [] :=
  (NewRulesWithDictConstraints_zero_test_unreachable sampleEnv sampleEnv_WF Voter
    "\x7b+zone=sh: 2, +zone=bj: 1\x7d").1 [("+zone=sh", 2), ("+zone=bj", 1)]
    (by decide) (by decide)

/-! ## `Clone` -/

theorem Rule.Clone_eq {E : Type} (m : Memory E) (r : Nat) (v : Rule SliceRef)
    (hr : m.rule? r = some v) :
    Rule.Clone m r
      = some ({ rules := (m.rules ++ [zeroRule]).set m.rules.length v, arrays := m.arrays },
          m.rules.length) := by
  simp only [Rule.Clone, hr, Memory.store]

theorem Memory.rule?_lt {E : Type} {m : Memory E} {r : Nat} {v : Rule SliceRef}
    (hr : m.rule? r = some v) : r < m.rules.length := by
  unfold Memory.rule? at hr
  exact (List.getElem?_eq_some_iff.1 hr).1

/-- C16: for every rule variable `r`, `r.Clone()` is a new variable that holds
the value of `r`, equal to it in every field, while `r` and every other
variable keep their value; and an assignment to the clone afterwards (of any
value, in particular of its value with one scalar field replaced) changes the
clone and leaves every field of `r` unchanged. -/
theorem Rule.Clone_equal_and_separate {E : Type} (m : Memory E) (r : Nat) (v : Rule SliceRef)
    (hr : m.rule? r = some v) :
    ∃ m' n c, Rule.Clone m r = some (m', n) ∧ n ≠ r ∧
      m'.rule? n = some c ∧
      c.GroupID = v.GroupID ∧ c.ID = v.ID ∧ c.Index = v.Index ∧ c.Override = v.Override ∧
      c.StartKeyHex = v.StartKeyHex ∧ c.EndKeyHex = v.EndKeyHex ∧ c.Role = v.Role ∧
      c.Count = v.Count ∧ c.Constraints = v.Constraints ∧
      c.LocationLabels = v.LocationLabels ∧
      m'.rule? r = some v ∧
      (∀ p, p < m.rules.length → m'.rule? p = m.rule? p) ∧
      m'.arrays = m.arrays ∧
      ∀ w : Rule SliceRef,
        (m'.store n w).rule? n = some w ∧ (m'.store n w).rule? r = some v ∧
        (m'.store n w).arrays = m.arrays := by
  have hlt : r < m.rules.length := Memory.rule?_lt hr
  have hne : m.rules.length ≠ r := by omega
  have hkeep : ∀ p, p < m.rules.length →
      ((m.rules ++ [zeroRule]).set m.rules.length v)[p]? = m.rules[p]? := by
    intro p hp
    rw [List.getElem?_set_ne (by omega), List.getElem?_append_left hp]
  refine ⟨_, _, v, Rule.Clone_eq m r v hr, hne, ?_, rfl, rfl, rfl, rfl, rfl, rfl, rfl, rfl, rfl,
    rfl, ?_, ?_, rfl, ?_⟩
  · simp [Memory.rule?]
  · simp only [Memory.rule?]
    rw [hkeep r hlt]
    exact hr
  · intro p hp
    simp only [Memory.rule?]
    exact hkeep p hp
  · intro w
    refine ⟨?_, ?_, rfl⟩
    · simp [Memory.rule?, Memory.store]
    · simp only [Memory.rule?, Memory.store]
      rw [List.getElem?_set_ne hne, hkeep r hlt]
      exact hr

/-- Witness of `Rule.Clone_equal_and_separate`: the rule of the sample memory;
the count of the clone is then set to 5. -/
theorem Rule.Clone_equal_and_separate_witness :
    ∃ m' n c, Rule.Clone sampleMemory 0 = some (m', n) ∧ n ≠ 0 ∧
      m'.rule? n = some c ∧ c.Count = 3 ∧
      (m'.store n { c with Count := 5 }).rule? n = some { c with Count := 5 } ∧
      ((m'.store n { c with Count := 5 }).rule? 0).map (fun v => v.Count) = some 3 := by
  obtain ⟨m', n, c, h, hne, hn, -, -, -, -, -, -, -, hcount, -, -, -, -, -, hw⟩ :=
    Rule.Clone_equal_and_separate sampleMemory 0
      { GroupID := "pd", ID := "r1", Index := 3, Override := true,
        StartKeyHex := "", EndKeyHex := "", Role := Voter, Count := 3,
        Constraints := ⟨0, 1⟩, LocationLabels := ["zone"] } (by decide)
  refine ⟨m', n, c, h, hne, hn, hcount, (hw _).1, ?_⟩
  rw [(hw _).2.1]
  rfl

/-- C17: shallow-clone aliasing.  For every rule variable `r` with a non-empty
constraint set, the constraint set of `r.Clone()` is the same reference as the
one of `r` (it is not copied), so an assignment to an element of the
constraint set of the clone, in place, leaves the value of the variable `r`
unchanged and is observed when the element is read through `r`. -/
theorem Rule.Clone_shares_constraints {E : Type} (m : Memory E) (r : Nat)
    (v : Rule SliceRef) (a : List E) (hr : m.rule? r = some v)
    (ha : m.arrays[v.Constraints.array]? = some a)
    (hlen : v.Constraints.len ≤ a.length) (hne : 0 < v.Constraints.len) :
    ∃ m' n c, Rule.Clone m r = some (m', n) ∧ n ≠ r ∧ m'.rule? n = some c ∧
      c.Constraints = v.Constraints ∧ m'.rule? r = some v ∧
      (∀ (i : Nat) (x : E), i < c.Constraints.len →
        m'.elem? v.Constraints i = a[i]? ∧
        (m'.setElem c.Constraints i x).rule? r = some v ∧
        (m'.setElem c.Constraints i x).elem? v.Constraints i = some x) ∧
      ∀ x : E, (m'.setElem c.Constraints 0 x).elem? v.Constraints 0 = some x := by
  have hlt : r < m.rules.length := Memory.rule?_lt hr
  have hneq : m.rules.length ≠ r := by omega
  have hkeep : ((m.rules ++ [zeroRule]).set m.rules.length v)[r]? = some v := by
    rw [List.getElem?_set_ne (by omega), List.getElem?_append_left hlt]
    exact hr
  have harr : v.Constraints.array < m.arrays.length := (List.getElem?_eq_some_iff.1 ha).1
  have key : ∀ (i : Nat) (x : E), i < v.Constraints.len →
      (Memory.mk ((m.rules ++ [zeroRule]).set m.rules.length v) m.arrays).elem? v.Constraints i
        = a[i]? ∧
      ((Memory.mk ((m.rules ++ [zeroRule]).set m.rules.length v) m.arrays).setElem
        v.Constraints i x).rule? r = some v ∧
      ((Memory.mk ((m.rules ++ [zeroRule]).set m.rules.length v) m.arrays).setElem
        v.Constraints i x).elem? v.Constraints i = some x := by
    intro i x hi
    have hia : i < a.length := by omega
    refine ⟨?_, ?_, ?_⟩
    · simp only [Memory.elem?, if_pos hi, ha]
    · simp only [Memory.setElem, if_pos hi, ha, Memory.rule?]
      exact hkeep
    · simp only [Memory.setElem, Memory.elem?, if_pos hi, ha]
      rw [List.getElem?_set_self harr]
      simp only []
      rw [List.getElem?_set_self hia]
  refine ⟨_, _, v, Rule.Clone_eq m r v hr, hneq, ?_, rfl, ?_, key, fun x => (key 0 x hne).2.2⟩
  · simp [Memory.rule?]
  · simpa only [Memory.rule?] using hkeep

/-- Witness of `Rule.Clone_shares_constraints`: the rule of the sample memory,
whose constraint set has one element. -/
theorem Rule.Clone_shares_constraints_witness :
    ∃ m' n c, Rule.Clone sampleMemory 0 = some (m', n) ∧ n ≠ 0 ∧ m'.rule? n = some c ∧
      m'.elem? ⟨0, 1⟩ 0 = some "+zone=sh" ∧
      (m'.setElem c.Constraints 0 "-zone=bj").elem? ⟨0, 1⟩ 0 = some "-zone=bj" := by
  obtain ⟨m', n, c, h, hne, hn, hc, -, hw, -⟩ :=
    Rule.Clone_shares_constraints sampleMemory 0
      { GroupID := "pd", ID := "r1", Index := 3, Override := true,
        StartKeyHex := "", EndKeyHex := "", Role := Voter, Count := 3,
        Constraints := ⟨0, 1⟩, LocationLabels := ["zone"] } ["+zone=sh"]
      (by decide) (by decide) (by decide) (by decide)
  have hi : 0 < c.Constraints.len := by rw [hc]; decide
  exact ⟨m', n, c, h, hne, hn, (hw 0 "-zone=bj" hi).1, (hw 0 "-zone=bj" hi).2.2⟩

/-! ## The pattern `wrongSeparatorRegexp` and `getYamlMapFormatError` -/

theorem Regexp.fullMatch_none (s : List Char) : Regexp.none.fullMatch s = false := by
  induction s with
  | nil => rfl
  | cons c s ih => simpa only [Regexp.fullMatch, Regexp.deriv] using ih

theorem Regexp.fullMatch_eps (s : List Char) : Regexp.eps.fullMatch s = true ↔ s = [] := by
  cases s with
  | nil => simp [Regexp.fullMatch, Regexp.nullable]
  | cons c s => simp [Regexp.fullMatch, Regexp.deriv, Regexp.fullMatch_none]

theorem Regexp.fullMatch_cls (p : Char → Bool) (s : List Char) :
    (Regexp.cls p).fullMatch s = true ↔ ∃ c, s = [c] ∧ p c = true := by
  cases s with
  | nil => simp [Regexp.fullMatch, Regexp.nullable]
  | cons c s =>
      simp only [Regexp.fullMatch, Regexp.deriv]
      by_cases hp : p c = true
      · rw [if_pos hp, Regexp.fullMatch_eps]
        constructor
        · rintro rfl
          exact ⟨c, rfl, hp⟩
        · rintro ⟨c', h, -⟩
          simp only [List.cons.injEq] at h
          exact h.2
      · rw [if_neg hp, Regexp.fullMatch_none]
        constructor
        · intro h; cases h
        · rintro ⟨c', h, hc'⟩
          simp only [List.cons.injEq] at h
          rw [← h.1] at hc'
          exact absurd hc' hp

theorem Regexp.fullMatch_alt (r r' : Regexp) (s : List Char) :
    (Regexp.alt r r').fullMatch s = (r.fullMatch s || r'.fullMatch s) := by
  induction s generalizing r r' with
  | nil => rfl
  | cons c s ih => simp only [Regexp.fullMatch, Regexp.deriv, ih]

theorem Regexp.fullMatch_cat (r r' : Regexp) (s : List Char) :
    (Regexp.cat r r').fullMatch s = true ↔
      ∃ t u, s = t ++ u ∧ r.fullMatch t = true ∧ r'.fullMatch u = true := by
  induction s generalizing r with
  | nil =>
      simp only [Regexp.fullMatch, Regexp.nullable, Bool.and_eq_true]
      constructor
      · rintro ⟨h1, h2⟩
        exact ⟨[], [], rfl, h1, h2⟩
      · rintro ⟨t, u, h, ht, hu⟩
        have htu : t = [] ∧ u = [] := List.append_eq_nil.1 h.symm
        rw [htu.1] at ht
        rw [htu.2] at hu
        exact ⟨ht, hu⟩
  | cons c s ih =>
      simp only [Regexp.fullMatch, Regexp.deriv]
      by_cases hn : r.nullable = true
      · rw [if_pos hn, Regexp.fullMatch_alt, Bool.or_eq_true, ih]
        constructor
        · rintro (⟨t, u, rfl, ht, hu⟩ | h)
          · exact ⟨c :: t, u, rfl, ht, hu⟩
          · exact ⟨[], c :: s, rfl, hn, h⟩
        · rintro ⟨t, u, h, ht, hu⟩
          cases t with
          | nil =>
              right
              simp only [List.nil_append] at h
              rw [← h] at hu
              exact hu
          | cons c' t' =>
              left
              simp only [List.cons_append, List.cons.injEq] at h
              obtain ⟨rfl, rfl⟩ := h
              exact ⟨t', u, rfl, ht, hu⟩
      · rw [if_neg hn, ih]
        constructor
        · rintro ⟨t, u, rfl, ht, hu⟩
          exact ⟨c :: t, u, rfl, ht, hu⟩
        · rintro ⟨t, u, h, ht, hu⟩
          cases t with
          | nil => exact absurd ht hn
          | cons c' t' =>
              simp only [List.cons_append, List.cons.injEq] at h
              obtain ⟨rfl, rfl⟩ := h
              exact ⟨t', u, rfl, ht, hu⟩

theorem Regexp.fullMatch_anything (s : List Char) : Regexp.anything.fullMatch s = true := by
  induction s with
  | nil => rfl
  | cons c s ih =>
      have h : Regexp.anything.fullMatch (c :: s)
          = (Regexp.cat Regexp.eps Regexp.anything).fullMatch s := rfl
      rw [h, Regexp.fullMatch_cat]
      exact ⟨[], s, rfl, rfl, ih⟩

theorem Regexp.fullMatch_star_cls (p : Char → Bool) (s : List Char)
    (h : (Regexp.star (Regexp.cls p)).fullMatch s = true) : ∀ c ∈ s, p c = true := by
  induction s with
  | nil => intro c hc; cases hc
  | cons c s ih =>
      simp only [Regexp.fullMatch, Regexp.deriv] at h
      by_cases hp : p c = true
      · rw [if_pos hp, Regexp.fullMatch_cat] at h
        obtain ⟨t, u, hs, ht, hu⟩ := h
        rw [Regexp.fullMatch_eps] at ht
        subst ht
        simp only [List.nil_append] at hs
        subst hs
        intro c' hc'
        rcases List.mem_cons.1 hc' with rfl | hmem
        · exact hp
        · exact ih hu c' hmem
      · rw [if_neg hp, Regexp.fullMatch_cat] at h
        obtain ⟨t, u, -, ht, -⟩ := h
        rw [Regexp.fullMatch_none] at ht
        cases ht

theorem wrongSeparatorRegexp_fullMatch_elim (v : List Char)
    (h : wrongSeparatorRegexp.fullMatch v = true) :
    ∃ init q d, v = init ++ [q, ':', d] ∧ notQuoteOrColon q = true ∧ isDigit d = true := by
  simp only [wrongSeparatorRegexp, Regexp.plus, Regexp.fullMatch_cat, Regexp.fullMatch_cls] at h
  obtain ⟨x, y, rfl, ⟨a, b, rfl, ⟨c, rfl, hc⟩, hb⟩, ⟨y₁, y₂, rfl, ⟨c₁, rfl, hc₁⟩, ⟨d, rfl, hd⟩⟩⟩ := h
  have hall : ∀ z ∈ c :: b, notQuoteOrColon z = true := by
    intro z hz
    rcases List.mem_cons.1 hz with rfl | hmem
    · exact hc
    · exact Regexp.fullMatch_star_cls _ b hb z hmem
  have hcolon : c₁ = ':' := by simpa using hc₁
  subst hcolon
  have hne : c :: b ≠ [] := List.cons_ne_nil c b
  refine ⟨(c :: b).dropLast, (c :: b).getLast hne, d, ?_, hall _ (List.getLast_mem hne), hd⟩
  have hsplit : (c :: b).dropLast ++ [(c :: b).getLast hne] = c :: b :=
    List.dropLast_append_getLast hne
  calc [c] ++ b ++ ([':'] ++ [d]) = (c :: b) ++ [':', d] := by simp
    _ = ((c :: b).dropLast ++ [(c :: b).getLast hne]) ++ [':', d] := by rw [hsplit]
    _ = (c :: b).dropLast ++ [(c :: b).getLast hne, ':', d] := by simp

theorem wrongSeparatorRegexp_fullMatch_intro (q d : Char) (hq : notQuoteOrColon q = true)
    (hd : isDigit d = true) : wrongSeparatorRegexp.fullMatch [q, ':', d] = true := by
  simp only [wrongSeparatorRegexp, Regexp.plus, Regexp.fullMatch_cat, Regexp.fullMatch_cls]
  exact ⟨[q], [':', d], rfl, ⟨[q], [], rfl, ⟨q, rfl, hq⟩, rfl⟩,
    ⟨[':'], [d], rfl, ⟨':', rfl, by decide⟩, ⟨d, rfl, hd⟩⟩⟩

theorem wrongSeparatorRegexp_MatchString (s : String) :
    wrongSeparatorRegexp.MatchString s = true ↔
      ∃ pre q d post, s.toList = pre ++ q :: ':' :: d :: post ∧
        notQuoteOrColon q = true ∧ isDigit d = true := by
  unfold Regexp.MatchString
  rw [Regexp.fullMatch_cat]
  constructor
  · rintro ⟨t, u, hs, -, hu⟩
    rw [Regexp.fullMatch_cat] at hu
    obtain ⟨v, w, rfl, hv, -⟩ := hu
    obtain ⟨init, q, d, rfl, hq, hd⟩ := wrongSeparatorRegexp_fullMatch_elim v hv
    exact ⟨t ++ init, q, d, w, by rw [hs]; simp, hq, hd⟩
  · rintro ⟨pre, q, d, post, hs, hq, hd⟩
    refine ⟨pre, q :: ':' :: d :: post, hs, Regexp.fullMatch_anything pre, ?_⟩
    rw [Regexp.fullMatch_cat]
    exact ⟨[q, ':', d], post, rfl, wrongSeparatorRegexp_fullMatch_intro q d hq hd,
      Regexp.fullMatch_anything post⟩

theorem getElem?_three_split {l : List Char} {a b c : Char} :
    ∀ {k : Nat}, l[k]? = some a → l[k + 1]? = some b → l[k + 2]? = some c →
      ∃ pre post, l = pre ++ a :: b :: c :: post := by
  induction l with
  | nil => intro k h; simp at h
  | cons x l ih =>
      intro k ha hb hc
      cases k with
      | zero =>
          simp only [List.getElem?_cons_zero, Option.some.injEq] at ha
          subst ha
          cases l with
          | nil => simp at hb
          | cons y l =>
              simp only [zero_add, List.getElem?_cons_succ, List.getElem?_cons_zero,
                Option.some.injEq] at hb
              subst hb
              cases l with
              | nil => simp at hc
              | cons z l =>
                  simp only [zero_add, List.getElem?_cons_succ, List.getElem?_cons_zero,
                    Option.some.injEq] at hc
                  subst hc
                  exact ⟨[], l, rfl⟩
      | succ k =>
          have ha' : l[k]? = some a := by simpa using ha
          have hb' : l[k + 1]? = some b := by
            have : k + 1 + 1 = (k + 1) + 1 := rfl
            simpa [List.getElem?_cons_succ] using hb
          have hc' : l[k + 2]? = some c := by
            have : k + 1 + 2 = (k + 2) + 1 := by omega
            rw [this, List.getElem?_cons_succ] at hc
            exact hc
          obtain ⟨pre, post, rfl⟩ := ih ha' hb' hc'
          exact ⟨x :: pre, post, rfl⟩

theorem wrongSeparatorAt_iff (l : List Char) :
    (∃ i, wrongSeparatorAt l i) ↔
      ∃ pre q d post, l = pre ++ q :: ':' :: d :: post ∧
        notQuoteOrColon q = true ∧ isDigit d = true := by
  have hq : ∀ q : Char, notQuoteOrColon q = true ↔
      q ≠ Char.ofNat 34 ∧ q ≠ Char.ofNat 39 ∧ q ≠ ':' := by
    intro q
    simp [notQuoteOrColon, not_or, and_assoc]
  have hd : ∀ d : Char, isDigit d = true ↔ '0' ≤ d ∧ d ≤ '9' := by
    intro d
    simp [isDigit]
  constructor
  · rintro ⟨i, hi, hcolon, ⟨d, hdi, hd0, hd9⟩, ⟨p, hpi, hp⟩⟩
    obtain ⟨k, rfl⟩ : ∃ k, i = k + 1 := ⟨i - 1, by omega⟩
    simp only [Nat.add_sub_cancel] at hpi
    obtain ⟨pre, post, rfl⟩ := getElem?_three_split hpi hcolon hdi
    exact ⟨pre, p, d, post, rfl, (hq p).2 hp, (hd d).2 ⟨hd0, hd9⟩⟩
  · rintro ⟨pre, q, d, post, rfl, hq', hd'⟩
    refine ⟨pre.length + 1, by omega, ?_, ⟨d, ?_, (hd d).1 hd'⟩, ⟨q, ?_, (hq q).1 hq'⟩⟩
    · rw [List.getElem?_append_right (by omega)]
      simp
    · rw [List.getElem?_append_right (by omega)]
      have : pre.length + 1 + 1 - pre.length = 2 := by omega
      simp [this]
    · rw [List.getElem?_append_right (by omega)]
      simp

/-- C18: exact characterisation of `getYamlMapFormatError`.  For every text it
returns `ErrInvalidConstraintsMappingNoColonFound` exactly when the text has no
colon, `ErrInvalidConstraintsMappingWrongSeparator` exactly when the
wrong-separator pattern occurs at some index `i ≥ 1` (a colon at `i`, an ASCII
digit at `i + 1`, and at `i - 1` a character that is not a double quote, a
single quote or a colon), and `nil` otherwise.  In particular `{label:1}`
gives the wrong-separator error and `{"label":1}`, whose key is quoted, gives
`nil`. -/
theorem getYamlMapFormatError_characterisation (s : String) :
    (getYamlMapFormatError s = some (.sentinel .ErrInvalidConstraintsMappingNoColonFound) ↔
      ':' ∉ s.toList) ∧
    (getYamlMapFormatError s = some (.sentinel .ErrInvalidConstraintsMappingWrongSeparator) ↔
      ∃ i, wrongSeparatorAt s.toList i) ∧
    (getYamlMapFormatError s = none ↔ ':' ∈ s.toList ∧ ¬ ∃ i, wrongSeparatorAt s.toList i) ∧
    getYamlMapFormatError "\x7blabel:1\x7d"
      = some (.sentinel .ErrInvalidConstraintsMappingWrongSeparator) ∧
    getYamlMapFormatError "\x7b\"label\":1\x7d" = none := by
  have hmatch : wrongSeparatorRegexp.MatchString s = true ↔ ∃ i, wrongSeparatorAt s.toList i :=
    (wrongSeparatorRegexp_MatchString s).trans (wrongSeparatorAt_iff s.toList).symm
  have hcolon_of : (∃ i, wrongSeparatorAt s.toList i) → ':' ∈ s.toList := by
    rintro ⟨i, -, hi, -⟩
    exact List.getElem?_mem hi
  refine ⟨?_, ?_, ?_, by decide, by decide⟩
  · unfold getYamlMapFormatError
    by_cases hc : ':' ∈ s.toList
    · have hc' : ':' ∈ s.data := hc
      by_cases hm : wrongSeparatorRegexp.MatchString s = true <;> simp [hc', hm, hc]
    · have hc' : ':' ∉ s.data := hc
      simp [hc', hc]
  · unfold getYamlMapFormatError
    by_cases hc : ':' ∈ s.toList
    · have hc' : ':' ∈ s.data := hc
      by_cases hm : wrongSeparatorRegexp.MatchString s = true
      · simp only [hm, hmatch.1 hm, iff_true]
        simp [hc']
      · have hno : ¬ ∃ i, wrongSeparatorAt s.toList i := fun h => hm (hmatch.2 h)
        simp only [hno, iff_false]
        simp [hc', hm]
    · have hc' : ':' ∉ s.data := hc
      have hno : ¬ ∃ i, wrongSeparatorAt s.toList i := fun h => hc (hcolon_of h)
      simp only [hno, iff_false]
      simp [hc']
  · unfold getYamlMapFormatError
    by_cases hc : ':' ∈ s.toList
    · have hc' : ':' ∈ s.data := hc
      by_cases hm : wrongSeparatorRegexp.MatchString s = true
      · have hyes : ∃ i, wrongSeparatorAt s.toList i := hmatch.1 hm
        simp only [hyes, not_true_eq_false, and_false, iff_false]
        simp [hc', hm]
      · have hno : ¬ ∃ i, wrongSeparatorAt s.toList i := fun h => hm (hmatch.2 h)
        simp only [hno, not_false_eq_true, and_true, hc, iff_true]
        simp [hc', hm]
    · have hc' : ':' ∉ s.data := hc
      simp [hc', hc]

end Placement
